import Mathlib

/-!
# fbvncserver: framebuffer synchronisation and input re-injection

A shallow embedding of `fbvncserver.c` and the properties proved about it.

Conventions of the embedding.

* The three buffers `fbmmap`, `fbbuf` and `vncbuf` are only ever accessed through
  `unsigned int *` pointers, so each is modelled as a word-addressed memory
  `Nat → Nat` (index = offset in 32-bit words from the start of the buffer).
* `int` variables are `Int`; conversions between `unsigned` and `int` are written
  out with `toInt` / `toU32`.
* An operation on which the C program traps or has no defined result (division
  by zero, a table read past the end of the table) makes the embedded function
  return `none`.
-/

namespace FbVnc

/-! ## Machine integers -/

/-- The constant `INT_MAX` of `<limits.h>` for a 32-bit `int`. -/
def INT_MAX : Int := 2147483647

/-- Value of an integer after conversion to `unsigned int`. -/
def toU32 (v : Int) : Nat := (v % 4294967296).toNat

/-- Value of an `unsigned int` after conversion to `int` (two's complement). -/
def toInt (u : Nat) : Int :=
  if u % 4294967296 < 2147483648 then ((u % 4294967296 : Nat) : Int)
  else ((u % 4294967296 : Nat) : Int) - 4294967296

/-! ## Screen geometry and global state -/

/-- The fields of `struct fb_bitfield` read by the program. -/
structure fb_bitfield where
  offset : Nat
  length : Nat
deriving DecidableEq, Repr

/-- The fields of `struct fb_var_screeninfo` read by the program (all `__u32`). -/
structure fb_var_screeninfo where
  xres : Nat
  yres : Nat
  yoffset : Nat
  bits_per_pixel : Nat
  red : fb_bitfield
  green : fb_bitfield
  blue : fb_bitfield
deriving DecidableEq, Repr

/-- The global `varblock` of the frame differencing algorithm. -/
structure varblock_t where
  min_x : Int
  min_y : Int
  max_x : Int
  max_y : Int
  r_offset : Int
  g_offset : Int
  b_offset : Int
  pixels_per_int : Nat
deriving DecidableEq, Repr

/-- The globals touched by the scan: `scrinfo`, `varblock`, the comparison
snapshot `fbbuf` and the remote buffer `vncbuf`. -/
structure Server where
  scrinfo : fb_var_screeninfo
  varblock : varblock_t
  fbbuf : Nat → Nat
  vncbuf : Nat → Nat

/-- The four coordinates handed to `rfbMarkRectAsModified(vncscr, x1, y1, x2, y2)`. -/
structure Rect where
  x1 : Int
  y1 : Int
  x2 : Int
  y2 : Int
deriving DecidableEq, Repr

/-! ## Pixel transcoding -/

/-- The macro `PIXEL_FB_TO_RFB(p,r,g,b)`; `p` is an `unsigned int`, the shift
counts are the (non-negative) channel offsets. -/
def PIXEL_FB_TO_RFB (p r g b : Nat) : Nat :=
  ((p >>> r) &&& 0x1f001f) |||
  (((p >>> g) &&& 0x1f001f) <<< 5) |||
  (((p >>> b) &&& 0x1f001f) <<< 10)

/-- The part of `init_fb_server` that allocates the two zeroed buffers
(`calloc`) and fills in the bit shifts of `varblock`.  The `__u32` arithmetic of
`offset + length - 5` wraps and is then stored in an `int`; the division that
computes `pixels_per_int` traps when `bits_per_pixel` is zero. -/
def init_fb_server (scrinfo : fb_var_screeninfo) : Option Server :=
  if scrinfo.bits_per_pixel = 0 then none
  else some
    { scrinfo := scrinfo
      varblock :=
        { min_x := 0, min_y := 0, max_x := 0, max_y := 0
          r_offset := toInt (toU32 ((scrinfo.red.offset : Int) + scrinfo.red.length - 5))
          g_offset := toInt (toU32 ((scrinfo.green.offset : Int) + scrinfo.green.length - 5))
          b_offset := toInt (toU32 ((scrinfo.blue.offset : Int) + scrinfo.blue.length - 5))
          pixels_per_int := 32 / scrinfo.bits_per_pixel }
      fbbuf := fun _ => 0
      vncbuf := fun _ => 0 }

/-! ## Dirty-region scan -/

/-- The function `get_framebuffer_yoffset`: the `ioctl` either fails (`none`), and
the function returns `-1`, or refreshes the global `scrinfo` and the function
returns its `yoffset` converted to `int`. -/
def get_framebuffer_yoffset (ioctl : Option fb_var_screeninfo) (st : Server) :
    Server × Int :=
  match ioctl with
  | none => (st, -1)
  | some v => ({ st with scrinfo := v }, toInt v.yoffset)

/-- Store `v` in word `i` of a buffer. -/
def store (buf : Nat → Nat) (i v : Nat) : Nat → Nat :=
  fun j => if j = i then v else buf j

/-- The two bounding-box updates at the end of the body of the inner loop. -/
def track (x y : Int) (vb : varblock_t) : varblock_t :=
  let vb := if x < vb.min_x then { vb with min_x := x }
            else if x > vb.max_x then { vb with max_x := x } else vb
  if y < vb.min_y then { vb with min_y := y }
  else if y > vb.max_y then { vb with max_y := y } else vb

/-- The body of the inner loop of `update_screen` for the word at offset `i`
from the three pointers' start positions (`f = fbmmap + base + i`,
`c = fbbuf + i`, `r = vncbuf + i`), met at column `x` of row `y`. -/
def scan_word (fbmmap : Nat → Nat) (base : Nat) (x y : Int) (i : Nat) (st : Server) :
    Server :=
  let pixel := fbmmap (base + i)
  if pixel ≠ st.fbbuf i then
    let fbbuf := store st.fbbuf i pixel
    let pixel := if pixel = 0x18e320e4 ∨ pixel = 0x20e418e3 then 0x18e318e3 else pixel
    let vncbuf := store st.vncbuf i
      (PIXEL_FB_TO_RFB pixel st.varblock.r_offset.toNat st.varblock.g_offset.toNat
        st.varblock.b_offset.toNat)
    { st with fbbuf := fbbuf, vncbuf := vncbuf, varblock := track x y st.varblock }
  else st

/-- The inner loop `for (x = ...; x < (int) xres; x += pixels_per_int)` of row `y`,
entered at column `x` with the pointers at word offset `i`.  The first argument
bounds the number of iterations; `none` means the bound was too small. -/
def scan_row (fbmmap : Nat → Nat) (base : Nat) (xres ppi : Nat) (y : Int) :
    Nat → Nat → Nat × Server → Option (Nat × Server)
  | 0, x, s => if x < xres then none else some s
  | fuel + 1, x, (i, st) =>
    if x < xres then
      scan_row fbmmap base xres ppi y fuel (x + ppi) (i + 1, scan_word fbmmap base x y i st)
    else some (i, st)

/-- The outer loop `for (y = ...; y < (int) yres; y++)`: `rows` rows remain, the
next one is row `y`. -/
def scan_rows (fbmmap : Nat → Nat) (base : Nat) (xres ppi : Nat) :
    Nat → Nat → Nat × Server → Option (Nat × Server)
  | 0, _, s => some s
  | rows + 1, y, s =>
    match scan_row fbmmap base xres ppi y xres 0 s with
    | none => none
    | some s1 => scan_rows fbmmap base xres ppi rows (y + 1) s1

/-- The head of `update_screen`, up to the loops: the geometry query, the
fall-back to offset 0 when it fails, and the reset of the bounds to the empty
sentinel.  Returns the state and `y_virtual`. -/
def scan_begin (ioctl : Option fb_var_screeninfo) (st : Server) : Server × Int :=
  let (st, y_virtual) := get_framebuffer_yoffset ioctl st
  let y_virtual := if y_virtual < 0 then 0 else y_virtual
  ({ st with varblock :=
      { st.varblock with min_x := INT_MAX, min_y := INT_MAX, max_x := -1, max_y := -1 } },
   y_virtual)

/-- The tail of `update_screen`, after the loops: on a non-empty result the two
fix-ups of `max_x` and `max_y` and the call of `rfbMarkRectAsModified`. -/
def scan_end (st : Server) : Server × Option Rect :=
  if st.varblock.min_x < INT_MAX then
    let vb := st.varblock
    let vb := if vb.max_x < 0 then { vb with max_x := vb.min_x } else vb
    let vb := if vb.max_y < 0 then { vb with max_y := vb.min_y } else vb
    ({ st with varblock := vb }, some ⟨vb.min_x, vb.min_y, vb.max_x + 2, vb.max_y + 1⟩)
  else (st, none)

/-- The function `update_screen`.  `ioctl` is the outcome of the geometry query,
`fbmmap` the mapped native framebuffer.  The result is the new global state and
the rectangle passed to `rfbMarkRectAsModified`, if that call is made.  The
jump to the active sub-buffer, `f += y_virtual * scrinfo.xres / pixels_per_int`,
is computed in `unsigned` arithmetic and traps when `pixels_per_int` is zero. -/
def update_screen (ioctl : Option fb_var_screeninfo) (fbmmap : Nat → Nat) (st : Server) :
    Option (Server × Option Rect) :=
  let st0 := (scan_begin ioctl st).1
  let y_virtual := (scan_begin ioctl st).2
  if st0.varblock.pixels_per_int = 0 then none
  else
    let base := (y_virtual.toNat * st0.scrinfo.xres % 4294967296) / st0.varblock.pixels_per_int
    match scan_rows fbmmap base (toInt st0.scrinfo.xres).toNat st0.varblock.pixels_per_int
        (toInt st0.scrinfo.yres).toNat 0 (0, st0) with
    | none => none
    | some s => some (scan_end s.2)

/-- The loop of `blank_framebuffer` running over the word indices `0 .. n - 1`. -/
def blank_loop : Nat → Server → Server
  | 0, st => st
  | n + 1, st =>
    let st := blank_loop n st
    { st with vncbuf := store st.vncbuf n 0, fbbuf := store st.fbbuf n 0 }

/-- The function `blank_framebuffer`; the word count `xres * yres / pixels_per_int`
is computed in `unsigned` arithmetic and stored in an `int`. -/
def blank_framebuffer (st : Server) : Option Server :=
  if st.varblock.pixels_per_int = 0 then none
  else
    let n := toInt ((st.scrinfo.xres * st.scrinfo.yres % 4294967296) / st.varblock.pixels_per_int)
    some (blank_loop n.toNat st)

/-! ## Input event codes

The values of the constants of `<linux/input.h>` the program uses. -/

def EV_SYN : Nat := 0
def EV_KEY : Nat := 1
def EV_ABS : Nat := 3
def ABS_X : Nat := 0
def ABS_Y : Nat := 1
def BTN_TOUCH : Nat := 0x14a
def KEY_1 : Nat := 2
def KEY_2 : Nat := 3
def KEY_3 : Nat := 4
def KEY_4 : Nat := 5
def KEY_5 : Nat := 6
def KEY_6 : Nat := 7
def KEY_7 : Nat := 8
def KEY_8 : Nat := 9
def KEY_9 : Nat := 10
def KEY_0 : Nat := 11
def KEY_BACKSPACE : Nat := 14
def KEY_TAB : Nat := 15
def KEY_Q : Nat := 16
def KEY_W : Nat := 17
def KEY_E : Nat := 18
def KEY_R : Nat := 19
def KEY_T : Nat := 20
def KEY_Y : Nat := 21
def KEY_U : Nat := 22
def KEY_I : Nat := 23
def KEY_O : Nat := 24
def KEY_P : Nat := 25
def KEY_ENTER : Nat := 28
def KEY_A : Nat := 30
def KEY_S : Nat := 31
def KEY_D : Nat := 32
def KEY_F : Nat := 33
def KEY_G : Nat := 34
def KEY_H : Nat := 35
def KEY_J : Nat := 36
def KEY_K : Nat := 37
def KEY_L : Nat := 38
def KEY_LEFTSHIFT : Nat := 42
def KEY_Z : Nat := 44
def KEY_X : Nat := 45
def KEY_C : Nat := 46
def KEY_V : Nat := 47
def KEY_B : Nat := 48
def KEY_N : Nat := 49
def KEY_M : Nat := 50
def KEY_COMMA : Nat := 51
def KEY_DOT : Nat := 52
def KEY_SLASH : Nat := 53
def KEY_LEFTALT : Nat := 56
def KEY_SPACE : Nat := 57
def KEY_F1 : Nat := 59
def KEY_F2 : Nat := 60
def KEY_F3 : Nat := 61
def KEY_F4 : Nat := 62
def KEY_RIGHTALT : Nat := 100
def KEY_HOME : Nat := 102
def KEY_UP : Nat := 103
def KEY_LEFT : Nat := 105
def KEY_RIGHT : Nat := 106
def KEY_END : Nat := 107
def KEY_DOWN : Nat := 108
def KEY_COMPOSE : Nat := 127
def KEY_BACK : Nat := 158
def KEY_EMAIL : Nat := 215
def KEY_UNKNOWN : Nat := 240

/-- The five key codes that only Android's `<linux/input.h>` defines.  Their
values are a parameter of the embedding. -/
structure PlatformKeys where
  KEY_SOFT1 : Nat
  KEY_SOFT2 : Nat
  KEY_CENTER : Nat
  KEY_SHARP : Nat
  KEY_STAR : Nat
deriving DecidableEq, Repr

/-- Without `ANDROID` the program defines the five codes as `KEY_UNKNOWN`. -/
def non_android : PlatformKeys :=
  { KEY_SOFT1 := KEY_UNKNOWN, KEY_SOFT2 := KEY_UNKNOWN, KEY_CENTER := KEY_UNKNOWN
    KEY_SHARP := KEY_UNKNOWN, KEY_STAR := KEY_UNKNOWN }

/-! ## Key-symbol translation -/

/-- What a call of `keysym2scancode` does: the value it returns and whether it
called `rfbShutdownServer`. -/
structure KeyResult where
  scancode : Int
  shutdown : Bool
deriving DecidableEq, Repr

/-- The table `map` of the branch for the symbols `0xFF50 .. 0xFF58`. -/
def nav_map (pk : PlatformKeys) : List Nat :=
  [KEY_HOME, KEY_LEFT, KEY_UP, KEY_RIGHT, KEY_DOWN, pk.KEY_SOFT1, pk.KEY_SOFT2, KEY_END, 0]

/-- The table `map` of the branch for the symbols `0xFFE1 .. 0xFFEE`. -/
def mod_map : List Nat :=
  [KEY_LEFTSHIFT, KEY_LEFTSHIFT, KEY_COMPOSE, KEY_COMPOSE, KEY_LEFTSHIFT, KEY_LEFTSHIFT,
   0, 0, KEY_LEFTALT, KEY_RIGHTALT, 0, 0, 0, 0]

/-- The table `map` of the branch for the ASCII letters. -/
def letter_map : List Nat :=
  [KEY_A, KEY_B, KEY_C, KEY_D, KEY_E, KEY_F, KEY_G, KEY_H, KEY_I, KEY_J, KEY_K, KEY_L, KEY_M,
   KEY_N, KEY_O, KEY_P, KEY_Q, KEY_R, KEY_S, KEY_T, KEY_U, KEY_V, KEY_W, KEY_X, KEY_Y, KEY_Z]

/-- A read `map[i]` of a `static const uint16_t` table; there is no result when
`i` is not an index of the table. -/
def read_map (map : List Nat) (i : Int) : Option Int :=
  if i < 0 then none else (map.get? i.toNat).map (fun v => ((v % 65536 : Nat) : Int))

/-- The `switch` of the last branch of `keysym2scancode`, for a symbol that is
not negative as an `int`. -/
def switch_code (pk : PlatformKeys) (code : Nat) : KeyResult :=
  match code with
  | 0x0003 => ⟨pk.KEY_CENTER, false⟩
  | 0x0020 => ⟨KEY_SPACE, false⟩
  | 0x0023 => ⟨pk.KEY_SHARP, false⟩
  | 0x0033 => ⟨pk.KEY_SHARP, false⟩
  | 0x002C => ⟨KEY_COMMA, false⟩
  | 0x003C => ⟨KEY_COMMA, false⟩
  | 0x002E => ⟨KEY_DOT, false⟩
  | 0x003E => ⟨KEY_DOT, false⟩
  | 0x002F => ⟨KEY_SLASH, false⟩
  | 0x003F => ⟨KEY_SLASH, false⟩
  | 0x0032 => ⟨KEY_EMAIL, false⟩
  | 0x0040 => ⟨KEY_EMAIL, false⟩
  | 0xFF08 => ⟨KEY_BACKSPACE, false⟩
  | 0xFF1B => ⟨KEY_BACK, false⟩
  | 0xFF09 => ⟨KEY_TAB, false⟩
  | 0xFF0D => ⟨KEY_ENTER, false⟩
  | 0x002A => ⟨pk.KEY_STAR, false⟩
  | 0xFFBE => ⟨KEY_F1, false⟩
  | 0xFFBF => ⟨KEY_F2, false⟩
  | 0xFFC0 => ⟨KEY_F3, false⟩
  | 0xFFC5 => ⟨KEY_F4, false⟩
  | 0xFFC8 => ⟨0, true⟩
  | _ => ⟨0, false⟩

/-- The function `keysym2scancode`; `key` is the `rfbKeySym` (a 32-bit unsigned
value), converted to `int` on entry.  Where `code & 0xF` and `code & 0x5F` are
computed `code` is positive, so the operation is the one on natural numbers. -/
def keysym2scancode (pk : PlatformKeys) (key : Nat) : Option KeyResult :=
  let code : Int := toInt key
  if 0x30 ≤ code ∧ code ≤ 0x39 then
    let scancode : Int := ((code.toNat &&& 0xF : Nat) : Int) - 1
    let scancode := if scancode < 0 then scancode + 10 else scancode
    some ⟨scancode + KEY_1, false⟩
  else if 0xFF50 ≤ code ∧ code ≤ 0xFF58 then
    (read_map (nav_map pk) ((code.toNat &&& 0xF : Nat) : Int)).map (fun v => ⟨v, false⟩)
  else if 0xFFE1 ≤ code ∧ code ≤ 0xFFEE then
    (read_map mod_map ((code.toNat &&& 0xF : Nat) : Int)).map (fun v => ⟨v, false⟩)
  else if (0x41 ≤ code ∧ code ≤ 0x5A) ∨ (0x61 ≤ code ∧ code ≤ 0x7A) then
    (read_map letter_map (((code.toNat &&& 0x5F : Nat) : Int) - 0x41)).map (fun v => ⟨v, false⟩)
  else if code < 0 then some ⟨0, false⟩
  else some (switch_code pk code.toNat)

/-! ## Event injection -/

/-- The fields `type`, `code` and `value` of a `struct input_event`.  The field
`time`, read from the clock just before each write, is not modelled. -/
structure input_event where
  type : Nat
  code : Nat
  value : Int
deriving DecidableEq, Repr

/-- The outside world as the injection functions see it: the events handed to
`write` on `kbdfd` and on `touchfd`, in order, the number of "write event
failed" messages printed, and whether `rfbShutdownServer` has been called. -/
structure World where
  kbd : List input_event
  touch : List input_event
  failed : Nat
  shutdown : Bool
deriving DecidableEq, Repr

/-- A call `write(kbdfd, &ev, sizeof(ev))` followed by the test of its result;
`fails n` tells whether the `n`-th call of `write` (counted from 0 over both
devices) returns a negative value. -/
def write_kbd (fails : Nat → Bool) (ev : input_event) (w : World) : World :=
  if fails (w.kbd.length + w.touch.length) then
    { w with kbd := w.kbd ++ [ev], failed := w.failed + 1 }
  else { w with kbd := w.kbd ++ [ev] }

/-- A call `write(touchfd, &ev, sizeof(ev))` followed by the test of its result. -/
def write_touch (fails : Nat → Bool) (ev : input_event) (w : World) : World :=
  if fails (w.kbd.length + w.touch.length) then
    { w with touch := w.touch ++ [ev], failed := w.failed + 1 }
  else { w with touch := w.touch ++ [ev] }

/-- The function `injectKeyEvent(uint16_t code, uint16_t value)`; the arguments
are converted to `uint16_t` by the call. -/
def injectKeyEvent (fails : Nat → Bool) (code value : Int) (w : World) : World :=
  write_kbd fails ⟨EV_KEY, (code % 65536).toNat, value % 65536⟩ w

/-- The function `keyevent`. -/
def keyevent (pk : PlatformKeys) (fails : Nat → Bool) (down : Int) (key : Nat) (w : World) :
    Option World :=
  match keysym2scancode pk key with
  | none => none
  | some r =>
    let w := if r.shutdown then { w with shutdown := true } else w
    if r.scancode ≠ 0 then some (injectKeyEvent fails r.scancode down w) else some w

/-- The globals `xmin`, `xmax`, `ymin`, `ymax` set by `init_touch`. -/
structure TouchRange where
  xmin : Int
  xmax : Int
  ymin : Int
  ymax : Int
deriving DecidableEq, Repr

/-- The expression `vmin + (v * (vmax - vmin)) / res` of `injectTouchEvent` with
`int` operands `v`, `vmin`, `vmax` and an `unsigned` operand `res`: the product
is an `int` (wrapping), the division and the sum are `unsigned`, and the result
is stored in an `int`.  Division by zero has no result. -/
def rescale (v vmin vmax : Int) (res : Nat) : Option Int :=
  if res = 0 then none
  else some (toInt (toU32 vmin + toU32 (v * toInt (toU32 (vmax - vmin))) / res))

/-- The function `injectTouchEvent`. -/
def injectTouchEvent (fails : Nat → Bool) (tr : TouchRange) (scrinfo : fb_var_screeninfo)
    (down x y : Int) (w : World) : Option World :=
  match (if tr.xmax ≠ 0 then rescale x tr.xmin tr.xmax scrinfo.xres else some x) with
  | none => none
  | some x =>
    match (if tr.ymax ≠ 0 then rescale y tr.ymin tr.ymax scrinfo.yres else some y) with
    | none => none
    | some y =>
      let w := write_touch fails ⟨EV_KEY, BTN_TOUCH, down⟩ w
      let w := write_touch fails ⟨EV_ABS, ABS_X, x⟩ w
      let w := write_touch fails ⟨EV_ABS, ABS_Y, y⟩ w
      let w := write_touch fails ⟨EV_SYN, 0, 0⟩ w
      some w

/-- The function `ptrevent`; `buttonMask & 1` is taken on the 32-bit pattern of
the `int`. -/
def ptrevent (fails : Nat → Bool) (tr : TouchRange) (scrinfo : fb_var_screeninfo)
    (buttonMask x y : Int) (w : World) : Option World :=
  if toU32 buttonMask &&& 1 ≠ 0 then
    match injectTouchEvent fails tr scrinfo 1 x y w with
    | none => none
    | some w => injectTouchEvent fails tr scrinfo 0 x y w
  else some w

/-! ## Input device discovery -/

/-- The test `strstr(name, pattern) != NULL`: `pattern` occurs in `name` as a
contiguous run of characters. -/
def strstr (name pattern : String) : Bool := decide (pattern.data <:+: name.data)

/-- The path `snprintf(trypath, sizeof(trypath), DEV_FMT, i)` produces. -/
def DEV_FMT (i : Nat) : String := "/dev/input/event" ++ toString i

/-- The locals `device_id` and `key_id` of `input_finder` and the caller's
buffer `path`. -/
structure Finder where
  device_id : Int
  key_id : Int
  path : String
deriving DecidableEq, Repr

/-- The content of `path` after `strncpy(path, trypath, path_size)` and
`path[path_size - 1] = 0`, for `path_size ≥ 1`: the first `path_size - 1`
characters of the source. -/
def strncpy_term (src : String) (path_size : Nat) : String :=
  ⟨src.data.take (path_size - 1)⟩

/-- The inner loop of `input_finder` over the patterns that remain, `j` being
the index of the first of them, for device `i` with name `name`. -/
def match_patterns (name trypath : String) (path_size i : Nat) :
    List String → Nat → Finder → Finder
  | [], _, s => s
  | keystr :: rest, j, s =>
    let s :=
      if strstr name keystr then
        if s.key_id < 0 ∨ s.key_id > j then
          { device_id := i, key_id := j, path := strncpy_term trypath path_size }
        else s
      else s
    match_patterns name trypath path_size i rest (j + 1) s

/-- The state of `input_finder` after the first `n` iterations of its outer
loop.  `devices i` is the name the `ioctl` reads from device `i`, or `none`
when the device cannot be opened or the `ioctl` fails. -/
def finder_loop (devices : Nat → Option String) (patterns : List String) (path_size : Nat)
    (s : Finder) : Nat → Finder
  | 0 => s
  | n + 1 =>
    let s := finder_loop devices patterns path_size s n
    match devices n with
    | none => s
    | some name => match_patterns name (DEV_FMT n) path_size n patterns 0 s

/-- The function `input_finder`: the value returned and the content of `path`
on return. -/
def input_finder (devices : Nat → Option String) (max_num : Int) (patterns : List String)
    (path : String) (path_size : Nat) : Int × String :=
  let s := finder_loop devices patterns path_size ⟨-1, -1, path⟩ max_num.toNat
  (s.device_id, s.path)

/-! ## Vocabulary for the statements about input -/

/-- The symbols named by a `case` label of the `switch` of `keysym2scancode`. -/
def switch_symbols : List Nat :=
  [0x0003, 0x0020, 0x0023, 0x0033, 0x002C, 0x003C, 0x002E, 0x003E, 0x002F, 0x003F, 0x0032,
   0x0040, 0xFF08, 0xFF1B, 0xFF09, 0xFF0D, 0x002A, 0xFFBE, 0xFFBF, 0xFFC0, 0xFFC5, 0xFFC8]

/-- A key symbol matches a translation rule: it is a digit, one of the nine
symbols `0xFF50 .. 0xFF58`, one of the fourteen symbols `0xFFE1 .. 0xFFEE`, an
ASCII letter, or a symbol of the fixed table (the `switch`). -/
def matches_rule (key : Nat) : Prop :=
  (0x30 ≤ key ∧ key ≤ 0x39) ∨ (0xFF50 ≤ key ∧ key ≤ 0xFF58) ∨ (0xFFE1 ≤ key ∧ key ≤ 0xFFEE) ∨
  (0x41 ≤ key ∧ key ≤ 0x5A) ∨ (0x61 ≤ key ∧ key ≤ 0x7A) ∨ key ∈ switch_symbols

/-- A world in which nothing has been written yet. -/
def quiet : World := { kbd := [], touch := [], failed := 0, shutdown := false }

/-- Pattern number `j` occurs in the name read from device `i`. -/
def finds (devices : Nat → Option String) (patterns : List String) (i j : Nat) : Prop :=
  ∃ name pat, devices i = some name ∧ patterns.get? j = some pat ∧ strstr name pat = true

/-- Index of the first of the given patterns that occurs in `name`, the first
pattern having index `j`. -/
def first_match (name : String) : List String → Nat → Option Nat
  | [], _ => none
  | p :: ps, j => if strstr name p then some j else first_match name ps (j + 1)

/-- Two devices, the touch screen enumerated first. -/
def touch_first : Nat → Option String :=
  fun i => if i = 0 then some "foo-touchscreen" else if i = 1 then some "bar-qwerty-kbd"
    else none

/-- The same two devices, the keyboard enumerated first. -/
def touch_second : Nat → Option String :=
  fun i => if i = 0 then some "bar-qwerty-kbd" else if i = 1 then some "foo-touchscreen"
    else none

/-! ## Vocabulary for the statements about the scan -/

/-- Number of columns of a row the scan runs over: `(int) scrinfo.xres`, read
after the geometry query. -/
def scan_cols (ioctl : Option fb_var_screeninfo) (st : Server) : Nat :=
  (toInt (scan_begin ioctl st).1.scrinfo.xres).toNat

/-- Number of rows the scan runs over: `(int) scrinfo.yres`, read after the
geometry query. -/
def scan_lines (ioctl : Option fb_var_screeninfo) (st : Server) : Nat :=
  (toInt (scan_begin ioctl st).1.scrinfo.yres).toNat

/-- Number of words the scan visits in a row when a word holds two pixels. -/
def row_words (ioctl : Option fb_var_screeninfo) (st : Server) : Nat :=
  (scan_cols ioctl st + 1) / 2

/-- Word offset of the active native sub-buffer inside `fbmmap`. -/
def scan_base (ioctl : Option fb_var_screeninfo) (st : Server) : Nat :=
  ((scan_begin ioctl st).2.toNat * (scan_begin ioctl st).1.scrinfo.xres % 4294967296) /
    (scan_begin ioctl st).1.varblock.pixels_per_int

/-- Word index, in scan order, of the word at even column `x` of row `y`. -/
def word_index (ioctl : Option fb_var_screeninfo) (st : Server) (x y : Nat) : Nat :=
  y * row_words ioctl st + x / 2

/-- State of the scan after the first `n` words in scan order, for `w` words per
row and two pixels per word: word `n` sits at column `2 * (n % w)` of row `n / w`. -/
def scan_upto (fbmmap : Nat → Nat) (base w : Nat) (st : Server) : Nat → Server
  | 0 => st
  | n + 1 =>
    scan_word fbmmap base ((2 * (n % w) : Nat) : Int) ((n / w : Nat) : Int) n
      (scan_upto fbmmap base w st n)

/-! ## Vocabulary for the statements about transcoding -/

/-- The 16-bit pixel held in half `h` of a 32-bit word (`h = 0` the low half,
`h = 1` the high half). -/
def pixel_half (h w : Nat) : Nat := (w >>> (16 * h)) % 65536

/-- The top five bits of channel `c` of a 16-bit pixel: the channel is the
`c.length` bits from bit `c.offset` upwards. -/
def channel_top5 (c : fb_bitfield) (px : Nat) : Nat :=
  ((px >>> c.offset) % 2 ^ c.length) >>> (c.length - 5)

/-! ## Vocabulary for the statements about the buffers -/

/-- The compatibility substitution applied to a changed word before it is
transcoded: the two checkerboard words become `0x18e318e3`, every other word is
left as it is. -/
def substitute (pixel : Nat) : Nat :=
  if pixel = 0x18e320e4 ∨ pixel = 0x20e418e3 then 0x18e318e3 else pixel

/-- The transcoding of a word with the offsets configured in `varblock`. -/
def transcode (st : Server) (p : Nat) : Nat :=
  PIXEL_FB_TO_RFB p st.varblock.r_offset.toNat st.varblock.g_offset.toNat
    st.varblock.b_offset.toNat

/-- Every word of the remote buffer is the transcoding of the substituted word
of the snapshot at the same index. -/
def coherent (st : Server) : Prop :=
  ∀ i, st.vncbuf i = transcode st (substitute (st.fbbuf i))

/-- Column of the first pixel of word `i` in scan order, for `w` words a row. -/
def word_col (w i : Nat) : Int := ((2 * (i % w) : Nat) : Int)

/-- Row of word `i` in scan order, for `w` words a row. -/
def word_row (w i : Nat) : Int := ((i / w : Nat) : Int)

/-- Word `i` of the active native sub-buffer differs from word `i` of the
snapshot `fbbuf`. -/
def changed_word (fbmmap : Nat → Nat) (base : Nat) (fbbuf : Nat → Nat) (i : Nat) : Prop :=
  fbmmap (base + i) ≠ fbbuf i

/-- The bounds of `varblock` are at the empty sentinel. -/
def bounds_empty (vb : varblock_t) : Prop :=
  vb.min_x = INT_MAX ∧ vb.min_y = INT_MAX ∧ vb.max_x = -1 ∧ vb.max_y = -1

/-- What the bounds of `varblock` record, inside the loops, about the changed
words among the first `n` words (`ch i`: word `i` changed): `min_x` is the
smallest changed column and `min_y` the first changed row; `max_x` is still `-1`
or is a changed column; `max_y` is still `-1`, all changes being on row `min_y`,
or is the last changed row. -/
def bounds_track (ch : Nat → Prop) (w n : Nat) (vb : varblock_t) : Prop :=
  (∃ i, i < n ∧ ch i ∧ vb.min_x = word_col w i) ∧
  (∀ i, i < n → ch i → vb.min_x ≤ word_col w i) ∧
  (vb.max_x = -1 ∨ ∃ i, i < n ∧ ch i ∧ vb.max_x = word_col w i) ∧
  (∃ i, i < n ∧ ch i ∧ vb.min_y = word_row w i) ∧
  (∀ i, i < n → ch i → vb.min_y ≤ word_row w i) ∧
  ((vb.max_y = -1 ∧ ∀ i, i < n → ch i → word_row w i = vb.min_y) ∨
   ((∃ i, i < n ∧ ch i ∧ vb.max_y = word_row w i) ∧
     ∀ i, i < n → ch i → word_row w i ≤ vb.max_y))

/-! ## Concrete configurations -/

/-- An RGB565 geometry (red 5 bits at 11, green 6 bits at 5, blue 5 bits at 0,
16 bits per pixel) of the given size, front buffer active. -/
def rgb565 (xres yres : Nat) : fb_var_screeninfo :=
  { xres := xres, yres := yres, yoffset := 0, bits_per_pixel := 16
    red := ⟨11, 5⟩, green := ⟨5, 6⟩, blue := ⟨0, 5⟩ }

/-- The state of a server for a 4 × 2 RGB565 screen whose snapshot and remote
buffer hold the word `fill` everywhere. -/
def demo_server (fill : Nat) : Server :=
  { scrinfo := rgb565 4 2
    varblock :=
      { min_x := 0, min_y := 0, max_x := 0, max_y := 0
        r_offset := 11, g_offset := 6, b_offset := 0, pixels_per_int := 2 }
    fbbuf := fun _ => fill
    vncbuf := fun _ => fill }

/-- A native frame, all zero but for the word at column 2 of row 1 (word 3 of a
4 × 2 screen). -/
def frame_single : Nat → Nat := fun i => if i = 3 then 5 else 0

/-- A native frame of a 4 × 2 screen whose first and last words (0 and 3) are not
zero. -/
def frame_corners : Nat → Nat := fun i => if i = 0 ∨ i = 3 then 9 else 0

/-- A native frame, all zero but for the word at column 2 of row 0 and the word
at column 0 of row 1 (words 1 and 2 of a 4 × 2 screen). -/
def frame_stairs : Nat → Nat := fun i => if i = 1 ∨ i = 2 then 1 else 0

/-! ## The loops as a scan of the first `n` words -/

theorem scan_row_upto (fbmmap : Nat → Nat) (base xres y : Nat) (st : Server) :
    ∀ (fuel k : Nat), xres ≤ 2 * k + fuel → k ≤ (xres + 1) / 2 →
      scan_row fbmmap base xres 2 (y : Int) fuel (2 * k)
        (y * ((xres + 1) / 2) + k,
          scan_upto fbmmap base ((xres + 1) / 2) st (y * ((xres + 1) / 2) + k)) =
      some ((y + 1) * ((xres + 1) / 2),
          scan_upto fbmmap base ((xres + 1) / 2) st ((y + 1) * ((xres + 1) / 2))) := by
  intro fuel
  induction fuel with
  | zero =>
    intro k h1 h2
    have hk : k = (xres + 1) / 2 := by omega
    have hx : ¬ 2 * k < xres := by omega
    simp only [scan_row, hx, if_false]
    subst hk
    rw [Nat.add_mul, Nat.one_mul]
  | succ fuel ih =>
    intro k h1 h2
    by_cases hx : 2 * k < xres
    · have hk : k < (xres + 1) / 2 := by omega
      simp only [scan_row, hx, if_true]
      have hmod : (y * ((xres + 1) / 2) + k) % ((xres + 1) / 2) = k := by
        rw [Nat.mul_comm, Nat.mul_add_mod, Nat.mod_eq_of_lt hk]
      have hdiv : (y * ((xres + 1) / 2) + k) / ((xres + 1) / 2) = y := by
        rw [Nat.mul_comm, Nat.mul_add_div (by omega), Nat.div_eq_of_lt hk, Nat.add_zero]
      have hstep : scan_word fbmmap base ((2 * k : Nat) : Int) (y : Int)
          (y * ((xres + 1) / 2) + k)
          (scan_upto fbmmap base ((xres + 1) / 2) st (y * ((xres + 1) / 2) + k)) =
          scan_upto fbmmap base ((xres + 1) / 2) st (y * ((xres + 1) / 2) + (k + 1)) := by
        rw [← Nat.add_assoc]
        simp only [scan_upto, hmod, hdiv]
      have h := ih (k + 1) (by omega) (by omega)
      rw [hstep]
      have e : 2 * k + 2 = 2 * (k + 1) := by ring
      rw [e]
      exact h
    · have hk : k = (xres + 1) / 2 := by omega
      simp only [scan_row, hx, if_false]
      subst hk
      rw [Nat.add_mul, Nat.one_mul]

theorem scan_rows_upto (fbmmap : Nat → Nat) (base xres : Nat) (st : Server) :
    ∀ (rows y : Nat),
      scan_rows fbmmap base xres 2 rows y
        (y * ((xres + 1) / 2), scan_upto fbmmap base ((xres + 1) / 2) st (y * ((xres + 1) / 2))) =
      some ((y + rows) * ((xres + 1) / 2),
          scan_upto fbmmap base ((xres + 1) / 2) st ((y + rows) * ((xres + 1) / 2))) := by
  intro rows
  induction rows with
  | zero => intro y; simp [scan_rows]
  | succ rows ih =>
    intro y
    have h := scan_row_upto fbmmap base xres y st xres 0 (by omega) (by omega)
    simp only [Nat.mul_zero, Nat.add_zero] at h
    simp only [scan_rows, h]
    have e : y + (rows + 1) = (y + 1) + rows := by omega
    rw [e]
    exact ih (y + 1)

/-- With two pixels per word `update_screen` always returns, and its result is
the tail of the function applied to the scan of all visited words. -/
theorem update_screen_eq (ioctl : Option fb_var_screeninfo) (fbmmap : Nat → Nat) (st : Server)
    (hppi : st.varblock.pixels_per_int = 2) :
    update_screen ioctl fbmmap st =
      some (scan_end (scan_upto fbmmap (scan_base ioctl st) (row_words ioctl st)
        (scan_begin ioctl st).1 (scan_lines ioctl st * row_words ioctl st))) := by
  have hp : (scan_begin ioctl st).1.varblock.pixels_per_int = 2 := by
    cases ioctl <;> simpa [scan_begin, get_framebuffer_yoffset] using hppi
  have h := scan_rows_upto fbmmap (scan_base ioctl st) (scan_cols ioctl st)
    (scan_begin ioctl st).1 (scan_lines ioctl st) 0
  simp only [Nat.zero_mul, Nat.zero_add, scan_upto] at h
  simp only [update_screen, hp]
  simp only [scan_base, scan_cols, scan_lines, row_words, hp] at h ⊢
  simp [h]

/-! ## Basic facts about one step of the scan -/

theorem toInt_lt (u : Nat) : toInt u < 2147483648 := by
  unfold toInt
  split <;> omega

theorem scan_cols_lt (ioctl : Option fb_var_screeninfo) (st : Server) :
    (scan_cols ioctl st : Int) < 2147483648 := by
  have h := toInt_lt (scan_begin ioctl st).1.scrinfo.xres
  unfold scan_cols
  omega

theorem scan_lines_lt (ioctl : Option fb_var_screeninfo) (st : Server) :
    (scan_lines ioctl st : Int) < 2147483648 := by
  have h := toInt_lt (scan_begin ioctl st).1.scrinfo.yres
  unfold scan_lines
  omega

theorem scan_begin_fbbuf (ioctl : Option fb_var_screeninfo) (st : Server) :
    (scan_begin ioctl st).1.fbbuf = st.fbbuf := by
  cases ioctl <;> rfl

theorem scan_begin_vncbuf (ioctl : Option fb_var_screeninfo) (st : Server) :
    (scan_begin ioctl st).1.vncbuf = st.vncbuf := by
  cases ioctl <;> rfl

theorem scan_begin_bounds (ioctl : Option fb_var_screeninfo) (st : Server) :
    (scan_begin ioctl st).1.varblock.min_x = INT_MAX ∧
    (scan_begin ioctl st).1.varblock.min_y = INT_MAX ∧
    (scan_begin ioctl st).1.varblock.max_x = -1 ∧
    (scan_begin ioctl st).1.varblock.max_y = -1 := by
  cases ioctl <;> exact ⟨rfl, rfl, rfl, rfl⟩

theorem scan_word_same (fbmmap : Nat → Nat) (base : Nat) (x y : Int) (i : Nat) (st : Server)
    (h : fbmmap (base + i) = st.fbbuf i) : scan_word fbmmap base x y i st = st := by
  simp [scan_word, h]

theorem scan_word_changed (fbmmap : Nat → Nat) (base : Nat) (x y : Int) (i : Nat) (st : Server)
    (h : fbmmap (base + i) ≠ st.fbbuf i) :
    (scan_word fbmmap base x y i st).varblock = track x y st.varblock ∧
    (scan_word fbmmap base x y i st).fbbuf = store st.fbbuf i (fbmmap (base + i)) := by
  simp [scan_word, h]

theorem scan_upto_stable (fbmmap : Nat → Nat) (base w : Nat) (st : Server) (m : Nat) :
    ∀ n, m ≤ n →
      (∀ i, m ≤ i → i < n → fbmmap (base + i) = (scan_upto fbmmap base w st m).fbbuf i) →
      scan_upto fbmmap base w st n = scan_upto fbmmap base w st m := by
  intro n
  induction n with
  | zero =>
    intro hm _
    have : m = 0 := by omega
    subst this
    rfl
  | succ n ih =>
    intro hm hsame
    by_cases hmn : m = n + 1
    · rw [hmn]
    · have hle : m ≤ n := by omega
      have hn := ih hle (fun i h1 h2 => hsame i h1 (by omega))
      have hw := hsame n hle (by omega)
      show scan_word fbmmap base _ _ n (scan_upto fbmmap base w st n) = _
      rw [hn]
      exact scan_word_same fbmmap base _ _ n _ hw

/-! ## C2: a frame identical to the snapshot -/

/-- C2. If every word of the active native sub-buffer equals the corresponding
word of the comparison snapshot, `update_screen` returns with the bounds at the
empty sentinel (`min_x = min_y = INT_MAX`, `max_x = max_y = -1`), with the remote
buffer and the snapshot unchanged, and without calling `rfbMarkRectAsModified`. -/
theorem update_screen_identical (ioctl : Option fb_var_screeninfo) (fbmmap : Nat → Nat)
    (st : Server) (hppi : st.varblock.pixels_per_int = 2)
    (hsame : ∀ i, i < scan_lines ioctl st * row_words ioctl st →
      fbmmap (scan_base ioctl st + i) = st.fbbuf i) :
    ∃ st1, update_screen ioctl fbmmap st = some (st1, none) ∧
      st1.varblock.min_x = INT_MAX ∧ st1.varblock.min_y = INT_MAX ∧
      st1.varblock.max_x = -1 ∧ st1.varblock.max_y = -1 ∧
      st1.vncbuf = st.vncbuf ∧ st1.fbbuf = st.fbbuf := by
  have hb := scan_begin_bounds ioctl st
  have hst := scan_upto_stable fbmmap (scan_base ioctl st) (row_words ioctl st)
    (scan_begin ioctl st).1 0 (scan_lines ioctl st * row_words ioctl st) (Nat.zero_le _)
    (fun i _ h => by
      show _ = (scan_begin ioctl st).1.fbbuf i
      rw [scan_begin_fbbuf]
      exact hsame i h)
  have hend : scan_end (scan_begin ioctl st).1 = ((scan_begin ioctl st).1, none) := by
    simp [scan_end, hb.1]
  refine ⟨(scan_begin ioctl st).1, ?_, hb.1, hb.2.1, hb.2.2.1, hb.2.2.2,
    scan_begin_vncbuf ioctl st, scan_begin_fbbuf ioctl st⟩
  rw [update_screen_eq ioctl fbmmap st hppi, hst]
  show some (scan_end (scan_begin ioctl st).1) = _
  rw [hend]

/-! ## C3: exactly one changed word -/

theorem track_sentinel (x y : Int) (vb : varblock_t)
    (h1 : vb.min_x = INT_MAX) (h2 : vb.min_y = INT_MAX) (h3 : vb.max_x = -1)
    (h4 : vb.max_y = -1) (hx : x < INT_MAX) (hy : y < INT_MAX) :
    (track x y vb).min_x = x ∧ (track x y vb).min_y = y ∧
    (track x y vb).max_x = -1 ∧ (track x y vb).max_y = -1 := by
  simp [track, h1, h2, h3, h4, hx, hy]

theorem scan_end_first (s : Server) (a b : Int)
    (h1 : s.varblock.min_x = a) (h2 : s.varblock.min_y = b) (h3 : s.varblock.max_x = -1)
    (h4 : s.varblock.max_y = -1) (ha : a < INT_MAX) :
    ∃ s1, scan_end s = (s1, some ⟨a, b, a + 2, b + 1⟩) ∧
      s1.varblock.min_x = a ∧ s1.varblock.max_x = a ∧
      s1.varblock.min_y = b ∧ s1.varblock.max_y = b := by
  simp [scan_end, h1, h2, h3, h4, ha]

theorem word_index_lt (ioctl : Option fb_var_screeninfo) (st : Server) (x y : Nat)
    (hx : x < scan_cols ioctl st) (hy : y < scan_lines ioctl st) :
    word_index ioctl st x y < scan_lines ioctl st * row_words ioctl st := by
  have hk : x / 2 < row_words ioctl st := by
    unfold row_words
    omega
  have hm : (y + 1) * row_words ioctl st ≤ scan_lines ioctl st * row_words ioctl st :=
    Nat.mul_le_mul_right _ hy
  rw [Nat.add_mul, Nat.one_mul] at hm
  unfold word_index
  omega

theorem word_index_mod (ioctl : Option fb_var_screeninfo) (st : Server) (x y : Nat)
    (hx : x < scan_cols ioctl st) :
    word_index ioctl st x y % row_words ioctl st = x / 2 := by
  have hk : x / 2 < row_words ioctl st := by
    unfold row_words
    omega
  unfold word_index
  rw [Nat.mul_comm, Nat.mul_add_mod, Nat.mod_eq_of_lt hk]

theorem word_index_div (ioctl : Option fb_var_screeninfo) (st : Server) (x y : Nat)
    (hx : x < scan_cols ioctl st) :
    word_index ioctl st x y / row_words ioctl st = y := by
  have hk : x / 2 < row_words ioctl st := by
    unfold row_words
    omega
  unfold word_index
  rw [Nat.mul_comm, Nat.mul_add_div (by omega), Nat.div_eq_of_lt hk, Nat.add_zero]

/-- C3. If exactly one word differs between the native frame and the snapshot,
at even column `x` of row `y`, then `update_screen` returns with
`min_x = max_x = x` and `min_y = max_y = y`, and the rectangle it reports is
exactly `(x, y, x + 2, y + 1)`, the two pixels of that word. -/
theorem update_screen_single_word (ioctl : Option fb_var_screeninfo) (fbmmap : Nat → Nat)
    (st : Server) (hppi : st.varblock.pixels_per_int = 2) (x y : Nat)
    (heven : x % 2 = 0) (hx : x < scan_cols ioctl st) (hy : y < scan_lines ioctl st)
    (hdiff : fbmmap (scan_base ioctl st + word_index ioctl st x y) ≠
      st.fbbuf (word_index ioctl st x y))
    (hsame : ∀ i, i < scan_lines ioctl st * row_words ioctl st →
      i ≠ word_index ioctl st x y → fbmmap (scan_base ioctl st + i) = st.fbbuf i) :
    ∃ st1, update_screen ioctl fbmmap st =
        some (st1, some ⟨(x : Int), (y : Int), (x : Int) + 2, (y : Int) + 1⟩) ∧
      st1.varblock.min_x = x ∧ st1.varblock.max_x = x ∧
      st1.varblock.min_y = y ∧ st1.varblock.max_y = y := by
  have hb := scan_begin_bounds ioctl st
  have hlt := word_index_lt ioctl st x y hx hy
  have hmod := word_index_mod ioctl st x y hx
  have hdiv := word_index_div ioctl st x y hx
  have hcx := scan_cols_lt ioctl st
  have hcy := scan_lines_lt ioctl st
  -- the words before the changed one leave the state alone
  have h1 := scan_upto_stable fbmmap (scan_base ioctl st) (row_words ioctl st)
    (scan_begin ioctl st).1 0 (word_index ioctl st x y) (Nat.zero_le _)
    (fun i _ h => by
      show _ = (scan_begin ioctl st).1.fbbuf i
      rw [scan_begin_fbbuf]
      exact hsame i (by omega) (by omega))
  have h1 : scan_upto fbmmap (scan_base ioctl st) (row_words ioctl st)
      (scan_begin ioctl st).1 (word_index ioctl st x y) = (scan_begin ioctl st).1 := h1
  -- the changed word
  have hd : fbmmap (scan_base ioctl st + word_index ioctl st x y) ≠
      (scan_begin ioctl st).1.fbbuf (word_index ioctl st x y) := by
    rw [scan_begin_fbbuf]
    exact hdiff
  have h2 : scan_upto fbmmap (scan_base ioctl st) (row_words ioctl st)
      (scan_begin ioctl st).1 (word_index ioctl st x y + 1) =
      scan_word fbmmap (scan_base ioctl st) ((2 * (x / 2) : Nat) : Int) (y : Int)
        (word_index ioctl st x y) (scan_begin ioctl st).1 := by
    show scan_word _ _ _ _ _ (scan_upto _ _ _ _ _) = _
    rw [h1, hmod, hdiv]
  have hxx : 2 * (x / 2) = x := by omega
  rw [hxx] at h2
  have hch := scan_word_changed fbmmap (scan_base ioctl st) (x : Int) (y : Int)
    (word_index ioctl st x y) (scan_begin ioctl st).1 hd
  -- the words after the changed one leave the state alone
  have h3 := scan_upto_stable fbmmap (scan_base ioctl st) (row_words ioctl st)
    (scan_begin ioctl st).1 (word_index ioctl st x y + 1)
    (scan_lines ioctl st * row_words ioctl st) (by omega)
    (fun i hi1 hi2 => by
      rw [h2, hch.2]
      have hne : i ≠ word_index ioctl st x y := by omega
      simp only [store, hne, if_false]
      rw [scan_begin_fbbuf]
      exact hsame i hi2 hne)
  have ht := track_sentinel (x : Int) (y : Int) (scan_begin ioctl st).1.varblock
    hb.1 hb.2.1 hb.2.2.1 hb.2.2.2 (by unfold INT_MAX; omega) (by unfold INT_MAX; omega)
  rw [← hch.1] at ht
  obtain ⟨s1, hs1, hr⟩ := scan_end_first _ (x : Int) (y : Int) ht.1 ht.2.1 ht.2.2.1 ht.2.2.2
    (by unfold INT_MAX; omega)
  refine ⟨s1, ?_, hr⟩
  rw [update_screen_eq ioctl fbmmap st hppi, h3, h2, hs1]

theorem update_screen_identical_witness :
    ∃ st1, update_screen none (fun _ => 0) (demo_server 0) = some (st1, none) ∧
      st1.varblock.min_x = INT_MAX ∧ st1.varblock.min_y = INT_MAX ∧
      st1.varblock.max_x = -1 ∧ st1.varblock.max_y = -1 ∧
      st1.vncbuf = (demo_server 0).vncbuf ∧ st1.fbbuf = (demo_server 0).fbbuf :=
  update_screen_identical none (fun _ => 0) (demo_server 0) rfl (fun _ _ => rfl)

theorem update_screen_single_word_witness :
    ∃ st1, update_screen none frame_single (demo_server 0) =
        some (st1, some ⟨((2 : Nat) : Int), ((1 : Nat) : Int), ((2 : Nat) : Int) + 2,
          ((1 : Nat) : Int) + 1⟩) ∧
      st1.varblock.min_x = (2 : Nat) ∧ st1.varblock.max_x = (2 : Nat) ∧
      st1.varblock.min_y = (1 : Nat) ∧ st1.varblock.max_y = (1 : Nat) :=
  update_screen_single_word none frame_single (demo_server 0) rfl 2 1 (by decide) (by decide)
    (by decide) (by decide)
    (fun i hi hne => by
      have h4 : i < 4 := hi
      have h3 : i ≠ 3 := hne
      have e : scan_base none (demo_server 0) = 0 := by decide
      rw [e]
      show (if 0 + i = 3 then 5 else 0) = 0
      rw [if_neg (by omega)])

/-! ## C1: the reported rectangle and the changed words -/

/-- C1, evaluated where it fails.  On a 4 × 2 screen with a zero snapshot and
the frame `frame_stairs`, the word at column 2 of row 0 differs from the
snapshot, yet `update_screen` reports the rectangle `(0, 0, 2, 2)`, whose right
edge 2 leaves the pixels at columns 2 and 3 of that word outside. -/
theorem update_screen_stairs_uncovered :
    frame_stairs (scan_base none (demo_server 0) + word_index none (demo_server 0) 2 0) ≠
      (demo_server 0).fbbuf (word_index none (demo_server 0) 2 0) ∧
    (update_screen none frame_stairs (demo_server 0)).map Prod.snd =
      some (some ⟨0, 0, 2, 2⟩) := by
  decide

/-! ## C4: the transcoding macro, bit by bit -/

theorem mask_testBit (j : Nat) :
    Nat.testBit 0x1f001f j = decide (j < 5 ∨ (16 ≤ j ∧ j < 21)) := by
  by_cases h : j < 21
  · interval_cases j <;> rfl
  · have : (0x1f001f : Nat) < 2 ^ j :=
      lt_of_lt_of_le (by norm_num : (0x1f001f : Nat) < 2 ^ 21) (Nat.pow_le_pow_right (by norm_num) (by omega))
    rw [Nat.testBit_lt_two_pow this]
    have hn : ¬ (j < 5 ∨ (16 ≤ j ∧ j < 21)) := by omega
    rw [decide_eq_false hn]

theorem out_testBit (p r g b j : Nat) :
    (PIXEL_FB_TO_RFB p r g b).testBit j =
      ((decide (j < 5 ∨ (16 ≤ j ∧ j < 21)) && p.testBit (r + j)) ||
       (decide (5 ≤ j ∧ (j - 5 < 5 ∨ (16 ≤ j - 5 ∧ j - 5 < 21))) && p.testBit (g + (j - 5))) ||
       (decide (10 ≤ j ∧ (j - 10 < 5 ∨ (16 ≤ j - 10 ∧ j - 10 < 21))) && p.testBit (b + (j - 10)))) := by
  simp only [PIXEL_FB_TO_RFB, Nat.testBit_or, Nat.testBit_and, Nat.testBit_shiftRight,
    Nat.testBit_shiftLeft, mask_testBit, ge_iff_le, Bool.decide_and, Bool.decide_or]
  cases p.testBit (r + j) <;> cases p.testBit (g + (j - 5)) <;> cases p.testBit (b + (j - 10)) <;>
    simp

theorem pixel_half_testBit (h w i : Nat) :
    (pixel_half h w).testBit i = (decide (i < 16) && w.testBit (16 * h + i)) := by
  have e : (65536 : Nat) = 2 ^ 16 := by norm_num
  simp only [pixel_half, e, Nat.testBit_mod_two_pow, Nat.testBit_shiftRight]

theorem mod32_testBit (n i : Nat) : (n % 32).testBit i = (decide (i < 5) && n.testBit i) := by
  have e : (32 : Nat) = 2 ^ 5 := by norm_num
  simp only [e, Nat.testBit_mod_two_pow]

theorem channel_top5_testBit (c : fb_bitfield) (px i : Nat) :
    (channel_top5 c px).testBit i =
      (decide (c.length - 5 + i < c.length) && px.testBit (c.offset + (c.length - 5 + i))) := by
  simp only [channel_top5, Nat.testBit_shiftRight, Nat.testBit_mod_two_pow]

theorem transcode_red (p : Nat) (c : fb_bitfield) (g b h : Nat) (hh : h < 2)
    (h5 : 5 ≤ c.length) (h16 : c.offset + c.length ≤ 16) :
    pixel_half h (PIXEL_FB_TO_RFB p (c.offset + c.length - 5) g b) % 32 =
      channel_top5 c (pixel_half h p) := by
  apply Nat.eq_of_testBit_eq
  intro i
  rw [mod32_testBit, pixel_half_testBit, out_testBit, channel_top5_testBit, pixel_half_testBit]
  by_cases hi : i < 5
  · have e : c.offset + c.length - 5 + (16 * h + i) = 16 * h + (c.offset + (c.length - 5 + i)) := by
      omega
    rw [e, decide_eq_true hi, decide_eq_true (show i < 16 by omega),
      decide_eq_true (show c.length - 5 + i < c.length by omega),
      decide_eq_true (show c.offset + (c.length - 5 + i) < 16 by omega),
      decide_eq_true (show 16 * h + i < 5 ∨ (16 ≤ 16 * h + i ∧ 16 * h + i < 21) by omega),
      decide_eq_false (show ¬ (5 ≤ 16 * h + i ∧ (16 * h + i - 5 < 5 ∨
        (16 ≤ 16 * h + i - 5 ∧ 16 * h + i - 5 < 21))) by omega),
      decide_eq_false (show ¬ (10 ≤ 16 * h + i ∧ (16 * h + i - 10 < 5 ∨
        (16 ≤ 16 * h + i - 10 ∧ 16 * h + i - 10 < 21))) by omega)]
    simp
  · rw [decide_eq_false hi, decide_eq_false (show ¬ c.length - 5 + i < c.length by omega)]
    simp

theorem transcode_green (p : Nat) (c : fb_bitfield) (r b h : Nat) (hh : h < 2)
    (h5 : 5 ≤ c.length) (h16 : c.offset + c.length ≤ 16) :
    (pixel_half h (PIXEL_FB_TO_RFB p r (c.offset + c.length - 5) b) >>> 5) % 32 =
      channel_top5 c (pixel_half h p) := by
  apply Nat.eq_of_testBit_eq
  intro i
  rw [mod32_testBit, Nat.testBit_shiftRight, pixel_half_testBit, out_testBit,
    channel_top5_testBit, pixel_half_testBit]
  by_cases hi : i < 5
  · have e : c.offset + c.length - 5 + (16 * h + (5 + i) - 5) =
        16 * h + (c.offset + (c.length - 5 + i)) := by
      omega
    rw [e, decide_eq_true hi, decide_eq_true (show 5 + i < 16 by omega),
      decide_eq_true (show c.length - 5 + i < c.length by omega),
      decide_eq_true (show c.offset + (c.length - 5 + i) < 16 by omega),
      decide_eq_false (show ¬ (16 * h + (5 + i) < 5 ∨
        (16 ≤ 16 * h + (5 + i) ∧ 16 * h + (5 + i) < 21)) by omega),
      decide_eq_true (show (5 ≤ 16 * h + (5 + i) ∧ (16 * h + (5 + i) - 5 < 5 ∨
        (16 ≤ 16 * h + (5 + i) - 5 ∧ 16 * h + (5 + i) - 5 < 21))) by omega),
      decide_eq_false (show ¬ (10 ≤ 16 * h + (5 + i) ∧ (16 * h + (5 + i) - 10 < 5 ∨
        (16 ≤ 16 * h + (5 + i) - 10 ∧ 16 * h + (5 + i) - 10 < 21))) by omega)]
    simp
  · rw [decide_eq_false hi, decide_eq_false (show ¬ c.length - 5 + i < c.length by omega)]
    simp

theorem transcode_blue (p : Nat) (c : fb_bitfield) (r g h : Nat) (hh : h < 2)
    (h5 : 5 ≤ c.length) (h16 : c.offset + c.length ≤ 16) :
    (pixel_half h (PIXEL_FB_TO_RFB p r g (c.offset + c.length - 5)) >>> 10) % 32 =
      channel_top5 c (pixel_half h p) := by
  apply Nat.eq_of_testBit_eq
  intro i
  rw [mod32_testBit, Nat.testBit_shiftRight, pixel_half_testBit, out_testBit,
    channel_top5_testBit, pixel_half_testBit]
  by_cases hi : i < 5
  · have e : c.offset + c.length - 5 + (16 * h + (10 + i) - 10) =
        16 * h + (c.offset + (c.length - 5 + i)) := by
      omega
    rw [e, decide_eq_true hi, decide_eq_true (show 10 + i < 16 by omega),
      decide_eq_true (show c.length - 5 + i < c.length by omega),
      decide_eq_true (show c.offset + (c.length - 5 + i) < 16 by omega),
      decide_eq_false (show ¬ (16 * h + (10 + i) < 5 ∨
        (16 ≤ 16 * h + (10 + i) ∧ 16 * h + (10 + i) < 21)) by omega),
      decide_eq_false (show ¬ (5 ≤ 16 * h + (10 + i) ∧ (16 * h + (10 + i) - 5 < 5 ∨
        (16 ≤ 16 * h + (10 + i) - 5 ∧ 16 * h + (10 + i) - 5 < 21))) by omega),
      decide_eq_true (show (10 ≤ 16 * h + (10 + i) ∧ (16 * h + (10 + i) - 10 < 5 ∨
        (16 ≤ 16 * h + (10 + i) - 10 ∧ 16 * h + (10 + i) - 10 < 21))) by omega)]
    simp
  · rw [decide_eq_false hi, decide_eq_false (show ¬ c.length - 5 + i < c.length by omega)]
    simp

theorem transcode_bit15 (p r g b h : Nat) :
    (pixel_half h (PIXEL_FB_TO_RFB p r g b)).testBit 15 = false := by
  rw [pixel_half_testBit, out_testBit,
    decide_eq_false (show ¬ (16 * h + 15 < 5 ∨ (16 ≤ 16 * h + 15 ∧ 16 * h + 15 < 21)) by omega),
    decide_eq_false (show ¬ (5 ≤ 16 * h + 15 ∧ (16 * h + 15 - 5 < 5 ∨
      (16 ≤ 16 * h + 15 - 5 ∧ 16 * h + 15 - 5 < 21))) by omega),
    decide_eq_false (show ¬ (10 ≤ 16 * h + 15 ∧ (16 * h + 15 - 10 < 5 ∨
      (16 ≤ 16 * h + 15 - 10 ∧ 16 * h + 15 - 10 < 21))) by omega)]
  simp

theorem offset_toNat (c : fb_bitfield) (h5 : 5 ≤ c.length) (h16 : c.offset + c.length ≤ 16) :
    toInt (toU32 ((c.offset : Int) + c.length - 5)) = ((c.offset + c.length - 5 : Nat) : Int) := by
  unfold toInt toU32
  split <;> omega

/-- C4. For a channel layout in which each of red, green and blue is at least
five bits long and lies within bits 0..15, the offsets `init_fb_server` stores
are `offset + length - 5`, and for every word `P` and each of its two halves
the same half of `PIXEL_FB_TO_RFB(P, r, g, b)` has in bits 0-4 the top five bits
of the red channel of that half of `P`, in bits 5-9 those of its green channel,
in bits 10-14 those of its blue channel, and bit 15 clear.  For RGB565 the
offsets are 11, 6 and 0. -/
theorem pixel_fb_to_rfb_channels (scrinfo : fb_var_screeninfo) (st : Server)
    (hinit : init_fb_server scrinfo = some st)
    (hr5 : 5 ≤ scrinfo.red.length) (hr16 : scrinfo.red.offset + scrinfo.red.length ≤ 16)
    (hg5 : 5 ≤ scrinfo.green.length) (hg16 : scrinfo.green.offset + scrinfo.green.length ≤ 16)
    (hb5 : 5 ≤ scrinfo.blue.length) (hb16 : scrinfo.blue.offset + scrinfo.blue.length ≤ 16)
    (P h : Nat) (hh : h < 2) :
    st.varblock.r_offset = ((scrinfo.red.offset + scrinfo.red.length - 5 : Nat) : Int) ∧
    st.varblock.g_offset = ((scrinfo.green.offset + scrinfo.green.length - 5 : Nat) : Int) ∧
    st.varblock.b_offset = ((scrinfo.blue.offset + scrinfo.blue.length - 5 : Nat) : Int) ∧
    pixel_half h (PIXEL_FB_TO_RFB P st.varblock.r_offset.toNat st.varblock.g_offset.toNat
        st.varblock.b_offset.toNat) % 32 = channel_top5 scrinfo.red (pixel_half h P) ∧
    (pixel_half h (PIXEL_FB_TO_RFB P st.varblock.r_offset.toNat st.varblock.g_offset.toNat
        st.varblock.b_offset.toNat) >>> 5) % 32 = channel_top5 scrinfo.green (pixel_half h P) ∧
    (pixel_half h (PIXEL_FB_TO_RFB P st.varblock.r_offset.toNat st.varblock.g_offset.toNat
        st.varblock.b_offset.toNat) >>> 10) % 32 = channel_top5 scrinfo.blue (pixel_half h P) ∧
    (pixel_half h (PIXEL_FB_TO_RFB P st.varblock.r_offset.toNat st.varblock.g_offset.toNat
        st.varblock.b_offset.toNat)).testBit 15 = false ∧
    ∀ xres yres, (init_fb_server (rgb565 xres yres)).map
      (fun s => (s.varblock.r_offset, s.varblock.g_offset, s.varblock.b_offset)) =
      some (11, 6, 0) := by
  have er := offset_toNat scrinfo.red hr5 hr16
  have eg := offset_toNat scrinfo.green hg5 hg16
  have eb := offset_toNat scrinfo.blue hb5 hb16
  unfold init_fb_server at hinit
  split at hinit
  · cases hinit
  · cases hinit
    simp only [er, eg, eb, Int.toNat_ofNat]
    exact ⟨trivial, trivial, trivial, transcode_red P scrinfo.red _ _ h hh hr5 hr16,
      transcode_green P scrinfo.green _ _ h hh hg5 hg16,
      transcode_blue P scrinfo.blue _ _ h hh hb5 hb16,
      transcode_bit15 P _ _ _ h, fun _ _ => rfl⟩

theorem pixel_fb_to_rfb_channels_witness :
    (demo_server 0).varblock.r_offset = (((rgb565 4 2).red.offset + (rgb565 4 2).red.length - 5 : Nat) : Int) ∧
    (demo_server 0).varblock.g_offset = (((rgb565 4 2).green.offset + (rgb565 4 2).green.length - 5 : Nat) : Int) ∧
    (demo_server 0).varblock.b_offset = (((rgb565 4 2).blue.offset + (rgb565 4 2).blue.length - 5 : Nat) : Int) ∧
    pixel_half 1 (PIXEL_FB_TO_RFB 0xf81f07e0 (demo_server 0).varblock.r_offset.toNat
        (demo_server 0).varblock.g_offset.toNat (demo_server 0).varblock.b_offset.toNat) % 32 =
      channel_top5 (rgb565 4 2).red (pixel_half 1 0xf81f07e0) ∧
    (pixel_half 1 (PIXEL_FB_TO_RFB 0xf81f07e0 (demo_server 0).varblock.r_offset.toNat
        (demo_server 0).varblock.g_offset.toNat (demo_server 0).varblock.b_offset.toNat) >>> 5) % 32 =
      channel_top5 (rgb565 4 2).green (pixel_half 1 0xf81f07e0) ∧
    (pixel_half 1 (PIXEL_FB_TO_RFB 0xf81f07e0 (demo_server 0).varblock.r_offset.toNat
        (demo_server 0).varblock.g_offset.toNat (demo_server 0).varblock.b_offset.toNat) >>> 10) % 32 =
      channel_top5 (rgb565 4 2).blue (pixel_half 1 0xf81f07e0) ∧
    (pixel_half 1 (PIXEL_FB_TO_RFB 0xf81f07e0 (demo_server 0).varblock.r_offset.toNat
        (demo_server 0).varblock.g_offset.toNat (demo_server 0).varblock.b_offset.toNat)).testBit 15 = false ∧
    ∀ xres yres, (init_fb_server (rgb565 xres yres)).map
      (fun s => (s.varblock.r_offset, s.varblock.g_offset, s.varblock.b_offset)) =
      some (11, 6, 0) :=
  pixel_fb_to_rfb_channels (rgb565 4 2) (demo_server 0) rfl (by decide) (by decide) (by decide)
    (by decide) (by decide) (by decide) 0xf81f07e0 1 (by decide)

/-! ## C5: digits and letters -/

/-- C5. For every digit `d` the symbol `'0' + d` translates to the scan code of
the numeric key `d` (`KEY_0` for 0, `KEY_1 .. KEY_9` for 1..9), also for the
digits 2 and 3 that the later `switch` lists as well; and for every letter index
`i` the symbols `'A' + i` and `'a' + i` both translate to the scan code of the
`i`-th letter key. -/
theorem keysym2scancode_digits_letters (pk : PlatformKeys) :
    (∀ d, d < 10 → keysym2scancode pk (0x30 + d) =
      some ⟨(([KEY_0, KEY_1, KEY_2, KEY_3, KEY_4, KEY_5, KEY_6, KEY_7, KEY_8, KEY_9].getD d 0 :
        Nat) : Int), false⟩) ∧
    (∀ i, i < 26 →
      keysym2scancode pk (0x41 + i) =
        some ⟨(([KEY_A, KEY_B, KEY_C, KEY_D, KEY_E, KEY_F, KEY_G, KEY_H, KEY_I, KEY_J, KEY_K,
          KEY_L, KEY_M, KEY_N, KEY_O, KEY_P, KEY_Q, KEY_R, KEY_S, KEY_T, KEY_U, KEY_V, KEY_W,
          KEY_X, KEY_Y, KEY_Z].getD i 0 : Nat) : Int), false⟩ ∧
      keysym2scancode pk (0x61 + i) = keysym2scancode pk (0x41 + i)) := by
  constructor
  · intro d hd
    interval_cases d <;> rfl
  · intro i hi
    interval_cases i <;> exact ⟨rfl, rfl⟩

/-! ## C6: the modifier symbols -/

/-- C6, evaluated where it fails.  The table of the modifier branch is read at
index `code & 0xF`, which is 1 for the first symbol `0xFFE1`, not 0: the second
symbol `0xFFE2` gives `KEY_COMPOSE` (not `KEY_LEFTSHIFT`), the ninth and tenth
symbols `0xFFE9`, `0xFFEA` give `KEY_RIGHTALT` and 0 (not `KEY_LEFTALT` and
`KEY_RIGHTALT`), and the last symbol `0xFFEE` reads index 14 of a table of 14
entries. -/
theorem keysym2scancode_modifiers_shifted (pk : PlatformKeys) :
    keysym2scancode pk 0xFFE1 = some ⟨KEY_LEFTSHIFT, false⟩ ∧
    keysym2scancode pk 0xFFE2 = some ⟨KEY_COMPOSE, false⟩ ∧
    keysym2scancode pk 0xFFE9 = some ⟨KEY_RIGHTALT, false⟩ ∧
    keysym2scancode pk 0xFFEA = some ⟨0, false⟩ ∧
    keysym2scancode pk 0xFFEE = none ∧
    KEY_COMPOSE ≠ KEY_LEFTSHIFT ∧ KEY_RIGHTALT ≠ KEY_LEFTALT ∧ mod_map.length = 14 := by
  refine ⟨rfl, rfl, rfl, rfl, rfl, by decide, by decide, rfl⟩

/-! ## C7: unmapped input -/

theorem toInt_of_lt (key : Nat) (h : key < 2147483648) : toInt key = (key : Int) := by
  unfold toInt
  split <;> omega

theorem toInt_neg (key : Nat) (h1 : 2147483648 ≤ key) (h2 : key < 4294967296) :
    toInt key < 0 := by
  unfold toInt
  split <;> omega

theorem switch_code_unmatched (pk : PlatformKeys) (key : Nat) (h : key ∉ switch_symbols) :
    switch_code pk key = ⟨0, false⟩ := by
  unfold switch_code
  split <;> first | rfl | (exfalso; apply h; decide)

theorem keysym2scancode_unmatched (pk : PlatformKeys) (key : Nat) (hkey : key < 4294967296)
    (h : ¬ matches_rule key) : keysym2scancode pk key = some ⟨0, false⟩ := by
  unfold matches_rule at h
  simp only [not_or] at h
  obtain ⟨h1, h2, h3, h4, h5, h6⟩ := h
  by_cases hk : key < 2147483648
  · have e := toInt_of_lt key hk
    simp only [keysym2scancode, e]
    rw [if_neg (by omega), if_neg (by omega), if_neg (by omega), if_neg (by omega),
      if_neg (by omega)]
    simp only [Int.toNat_ofNat]
    rw [switch_code_unmatched pk key h6]
  · have e := toInt_neg key (by omega) hkey
    simp only [keysym2scancode]
    rw [if_neg (by omega), if_neg (by omega), if_neg (by omega), if_neg (by omega),
      if_pos e]

theorem read_map_range (map : List Nat) (i v : Int) (h : read_map map i = some v) :
    0 ≤ v ∧ v < 65536 := by
  unfold read_map at h
  split at h
  · cases h
  · rw [Option.map_eq_some'] at h
    obtain ⟨a, _, rfl⟩ := h
    omega

theorem switch_code_range (pk : PlatformKeys) (key : Nat)
    (hpk : pk.KEY_CENTER < 65536 ∧ pk.KEY_SHARP < 65536 ∧ pk.KEY_STAR < 65536) :
    0 ≤ (switch_code pk key).scancode ∧ (switch_code pk key).scancode < 65536 := by
  unfold switch_code
  split <;> first | decide | (dsimp only; omega)

theorem keysym2scancode_range (pk : PlatformKeys) (key : Nat) (r : KeyResult)
    (hpk : pk.KEY_CENTER < 65536 ∧ pk.KEY_SHARP < 65536 ∧ pk.KEY_STAR < 65536)
    (h : keysym2scancode pk key = some r) : 0 ≤ r.scancode ∧ r.scancode < 65536 := by
  unfold keysym2scancode at h
  dsimp only at h
  split at h
  · cases h
    have hb : (toInt key).toNat &&& 0xF ≤ 0xF := Nat.and_le_right
    dsimp only [KEY_1]
    split <;> omega
  · split at h
    · rw [Option.map_eq_some'] at h
      obtain ⟨v, hv, rfl⟩ := h
      exact read_map_range _ _ _ hv
    · split at h
      · rw [Option.map_eq_some'] at h
        obtain ⟨v, hv, rfl⟩ := h
        exact read_map_range _ _ _ hv
      · split at h
        · rw [Option.map_eq_some'] at h
          obtain ⟨v, hv, rfl⟩ := h
          exact read_map_range _ _ _ hv
        · split at h
          · cases h
            decide
          · cases h
            exact switch_code_range pk _ hpk

theorem write_kbd_events (fails : Nat → Bool) (ev : input_event) (w : World) :
    (write_kbd fails ev w).kbd = w.kbd ++ [ev] ∧ (write_kbd fails ev w).touch = w.touch := by
  unfold write_kbd
  split <;> exact ⟨rfl, rfl⟩

theorem write_touch_events (fails : Nat → Bool) (ev : input_event) (w : World) :
    (write_touch fails ev w).touch = w.touch ++ [ev] ∧ (write_touch fails ev w).kbd = w.kbd := by
  unfold write_touch
  split <;> exact ⟨rfl, rfl⟩

/-- C7 as stated fails: for the symbol `'5'`, which translates to `KEY_5`, and
`down = -1`, `keyevent` writes the event `(EV_KEY, KEY_5, 65535)`; its value is
`down` converted to `uint16_t`, not `down`. -/
theorem keyevent_negative_down :
    keysym2scancode non_android 0x35 = some ⟨KEY_5, false⟩ ∧
    keyevent non_android (fun _ => false) (-1) 0x35 quiet =
      some { quiet with kbd := [⟨EV_KEY, KEY_5, 65535⟩] } ∧
    keyevent non_android (fun _ => false) (-1) 0x35 quiet ≠
      some { quiet with kbd := [⟨EV_KEY, KEY_5, -1⟩] } := by
  decide

/-- C7, amended.  Unmapped input produces no hardware event: a key symbol that
matches no translation rule translates to 0; for every `down`, `keyevent` writes
exactly one event `(EV_KEY, scan code, down mod 2^16)` to the keyboard device
when the scan code is not 0, the value being `down` itself when
`0 ≤ down < 2^16`, and writes nothing when the scan code is 0; and `ptrevent`
writes nothing when bit 0 of the button mask is clear. -/
theorem unmapped_input_ignored (pk : PlatformKeys) (fails : Nat → Bool) (tr : TouchRange)
    (scrinfo : fb_var_screeninfo) (w : World) (down : Int)
    (hpk : pk.KEY_CENTER < 65536 ∧ pk.KEY_SHARP < 65536 ∧ pk.KEY_STAR < 65536) :
    (∀ key, key < 4294967296 → ¬ matches_rule key →
      keysym2scancode pk key = some ⟨0, false⟩) ∧
    (∀ key r, keysym2scancode pk key = some r → r.scancode ≠ 0 →
      ∃ w1 c, keyevent pk fails down key w = some w1 ∧ ((c : Nat) : Int) = r.scancode ∧
        w1.kbd = w.kbd ++ [⟨EV_KEY, c, down % 65536⟩] ∧ w1.touch = w.touch) ∧
    (0 ≤ down → down < 65536 → down % 65536 = down) ∧
    (∀ key r, keysym2scancode pk key = some r → r.scancode = 0 →
      ∃ w1, keyevent pk fails down key w = some w1 ∧ w1.kbd = w.kbd ∧ w1.touch = w.touch) ∧
    (∀ buttonMask x y, (toU32 buttonMask).testBit 0 = false →
      ptrevent fails tr scrinfo buttonMask x y w = some w) := by
  refine ⟨fun key hk hm => keysym2scancode_unmatched pk key hk hm, ?_,
    fun h0 h1 => by omega, ?_, ?_⟩
  · intro key r hr hne
    have hrange := keysym2scancode_range pk key r hpk hr
    have e1 : r.scancode % 65536 = r.scancode := by omega
    have e3 : (r.scancode.toNat : Int) = r.scancode := by omega
    have hk : keyevent pk fails down key w =
        some (injectKeyEvent fails r.scancode down
          (if r.shutdown then { w with shutdown := true } else w)) := by
      simp only [keyevent, hr, hne, ne_eq, not_false_eq_true, if_true]
    have hw := write_kbd_events fails ⟨EV_KEY, r.scancode.toNat, down % 65536⟩
      (if r.shutdown then { w with shutdown := true } else w)
    have hi : injectKeyEvent fails r.scancode down
        (if r.shutdown then { w with shutdown := true } else w) =
        write_kbd fails ⟨EV_KEY, r.scancode.toNat, down % 65536⟩
          (if r.shutdown then { w with shutdown := true } else w) := by
      simp only [injectKeyEvent, e1]
    have hs1 : (if r.shutdown then { w with shutdown := true } else w).kbd = w.kbd := by
      split <;> rfl
    have hs2 : (if r.shutdown then { w with shutdown := true } else w).touch = w.touch := by
      split <;> rfl
    rw [hi] at hk
    rw [hs1] at hw
    rw [hs2] at hw
    exact ⟨_, r.scancode.toNat, hk, e3, hw.1, hw.2⟩
  · intro key r hr h0
    have hk : keyevent pk fails down key w =
        some (if r.shutdown then { w with shutdown := true } else w) := by
      simp only [keyevent, hr, h0, ne_eq, not_true_eq_false, if_false]
    have hs1 : (if r.shutdown then { w with shutdown := true } else w).kbd = w.kbd := by
      split <;> rfl
    have hs2 : (if r.shutdown then { w with shutdown := true } else w).touch = w.touch := by
      split <;> rfl
    exact ⟨_, hk, hs1, hs2⟩
  · intro buttonMask x y hbit
    rw [Nat.testBit_zero] at hbit
    have hm : toU32 buttonMask % 2 = 0 := by
      have := Nat.mod_two_eq_zero_or_one (toU32 buttonMask)
      rcases this with h | h
      · exact h
      · rw [h] at hbit
        simp at hbit
    simp only [ptrevent, Nat.and_one_is_mod, hm, ne_eq, not_true_eq_false, if_false]

theorem unmapped_input_ignored_witness :
    (∀ key, key < 4294967296 → ¬ matches_rule key →
      keysym2scancode non_android key = some ⟨0, false⟩) ∧
    (∀ key r, keysym2scancode non_android key = some r → r.scancode ≠ 0 →
      ∃ w1 c, keyevent non_android (fun _ => true) 1 key quiet = some w1 ∧
        ((c : Nat) : Int) = r.scancode ∧
        w1.kbd = quiet.kbd ++ [⟨EV_KEY, c, (1 : Int) % 65536⟩] ∧ w1.touch = quiet.touch) ∧
    (0 ≤ (1 : Int) → (1 : Int) < 65536 → (1 : Int) % 65536 = 1) ∧
    (∀ key r, keysym2scancode non_android key = some r → r.scancode = 0 →
      ∃ w1, keyevent non_android (fun _ => true) 1 key quiet = some w1 ∧
        w1.kbd = quiet.kbd ∧ w1.touch = quiet.touch) ∧
    (∀ buttonMask x y, (toU32 buttonMask).testBit 0 = false →
      ptrevent (fun _ => true) ⟨0, 480, 0, 0⟩ (rgb565 240 320) buttonMask x y quiet =
        some quiet) :=
  unmapped_input_ignored non_android (fun _ => true) ⟨0, 480, 0, 0⟩ (rgb565 240 320) quiet 1
    (by decide)

/-! ## C8: the four events of a touch -/

theorem toU32_natCast (n : Nat) (h : n < 4294967296) : toU32 (n : Int) = n := by
  unfold toU32
  omega

theorem rescale_eq (v vmin vmax : Int) (res : Nat) (h0 : 0 ≤ v) (hv : v ≤ res)
    (hmin : 0 ≤ vmin) (hle : vmin ≤ vmax) (hmax : vmax < 2147483648)
    (hp : v * (vmax - vmin) < 4294967296) (hres : 0 < res) :
    rescale v vmin vmax res = some (vmin + v * (vmax - vmin) / res) := by
  have hmax0 : 0 ≤ vmax := le_trans hmin hle
  unfold rescale
  lift v to Nat using h0
  lift vmin to Nat using hmin
  lift vmax to Nat using hmax0
  have hle1 : vmin ≤ vmax := by exact_mod_cast hle
  have hmax1 : vmax < 2147483648 := by exact_mod_cast hmax
  have hv1 : v ≤ res := by exact_mod_cast hv
  have hd : ((vmax : Int) - (vmin : Int)) = ((vmax - vmin : Nat) : Int) := by omega
  rw [hd] at hp ⊢
  have hp1 : v * (vmax - vmin) < 4294967296 := by exact_mod_cast hp
  have hq : v * (vmax - vmin) / res ≤ vmax - vmin :=
    Nat.div_le_of_le_mul (Nat.mul_le_mul_right _ hv1)
  have e1 : toInt (toU32 ((vmax - vmin : Nat) : Int)) = ((vmax - vmin : Nat) : Int) := by
    rw [toU32_natCast _ (by omega), toInt_of_lt _ (by omega)]
  have e2 : toU32 ((v : Int) * ((vmax - vmin : Nat) : Int)) = v * (vmax - vmin) := by
    rw [← Nat.cast_mul, toU32_natCast _ hp1]
  have e3 : toU32 (vmin : Int) = vmin := toU32_natCast _ (by omega)
  rw [if_neg (by omega), e1, e2, e3, toInt_of_lt _ (by omega)]
  push_cast
  rfl

theorem injectTouchEvent_some (fails : Nat → Bool) (tr : TouchRange)
    (scrinfo : fb_var_screeninfo) (down x y x1 y1 : Int) (w : World)
    (hx : (if tr.xmax ≠ 0 then rescale x tr.xmin tr.xmax scrinfo.xres else some x) = some x1)
    (hy : (if tr.ymax ≠ 0 then rescale y tr.ymin tr.ymax scrinfo.yres else some y) = some y1) :
    ∃ w1, injectTouchEvent fails tr scrinfo down x y w = some w1 ∧
      w1.touch = w.touch ++ [⟨EV_KEY, BTN_TOUCH, down⟩, ⟨EV_ABS, ABS_X, x1⟩,
        ⟨EV_ABS, ABS_Y, y1⟩, ⟨EV_SYN, 0, 0⟩] ∧
      w1.kbd = w.kbd := by
  have hr : injectTouchEvent fails tr scrinfo down x y w =
      some (write_touch fails ⟨EV_SYN, 0, 0⟩ (write_touch fails ⟨EV_ABS, ABS_Y, y1⟩
        (write_touch fails ⟨EV_ABS, ABS_X, x1⟩ (write_touch fails ⟨EV_KEY, BTN_TOUCH, down⟩ w)))) := by
    simp only [injectTouchEvent, hx, hy]
  refine ⟨_, hr, ?_, ?_⟩
  · simp only [write_touch_events, List.append_assoc, List.singleton_append, List.nil_append,
      List.cons_append]
  · simp only [write_touch_events]

/-- C8. For coordinates inside the screen and a touch range with
`0 ≤ min ≤ max` on each axis whose products `x * (xmax - xmin)` and
`y * (ymax - ymin)` fit in 32 bits, `injectTouchEvent(down, x, y)` hands exactly
four events to the touch device, in this order and whatever the outcome of each
write: `(EV_KEY, BTN_TOUCH, down)`, `(EV_ABS, ABS_X, x')`, `(EV_ABS, ABS_Y, y')`,
`(EV_SYN, 0, 0)`, where `x' = x` when `xmax = 0` and
`x' = xmin + x * (xmax - xmin) / xres` otherwise, and `y'` likewise from `ymin`,
`ymax` and `yres`.  (The division needs a screen that is not empty along an
axis that is rescaled.) -/
theorem injectTouchEvent_four_events (fails : Nat → Bool) (tr : TouchRange)
    (scrinfo : fb_var_screeninfo) (down x y : Int) (w : World)
    (hx : 0 ≤ x ∧ x ≤ scrinfo.xres) (hy : 0 ≤ y ∧ y ≤ scrinfo.yres)
    (hxr : 0 ≤ tr.xmin ∧ tr.xmin ≤ tr.xmax ∧ tr.xmax < 2147483648)
    (hyr : 0 ≤ tr.ymin ∧ tr.ymin ≤ tr.ymax ∧ tr.ymax < 2147483648)
    (hxp : x * (tr.xmax - tr.xmin) < 4294967296)
    (hyp : y * (tr.ymax - tr.ymin) < 4294967296)
    (hxres : tr.xmax ≠ 0 → 0 < scrinfo.xres) (hyres : tr.ymax ≠ 0 → 0 < scrinfo.yres) :
    ∃ w1, injectTouchEvent fails tr scrinfo down x y w = some w1 ∧
      w1.touch = w.touch ++
        [⟨EV_KEY, BTN_TOUCH, down⟩,
         ⟨EV_ABS, ABS_X,
           if tr.xmax = 0 then x else tr.xmin + x * (tr.xmax - tr.xmin) / scrinfo.xres⟩,
         ⟨EV_ABS, ABS_Y,
           if tr.ymax = 0 then y else tr.ymin + y * (tr.ymax - tr.ymin) / scrinfo.yres⟩,
         ⟨EV_SYN, 0, 0⟩] ∧
      w1.kbd = w.kbd := by
  apply injectTouchEvent_some
  · by_cases h : tr.xmax = 0
    · simp only [h, ne_eq, not_true_eq_false, if_false, if_true]
    · simp only [h, ne_eq, not_false_eq_true, if_true, if_false]
      exact rescale_eq x tr.xmin tr.xmax scrinfo.xres hx.1 hx.2 hxr.1 hxr.2.1 hxr.2.2 hxp
        (hxres h)
  · by_cases h : tr.ymax = 0
    · simp only [h, ne_eq, not_true_eq_false, if_false, if_true]
    · simp only [h, ne_eq, not_false_eq_true, if_true, if_false]
      exact rescale_eq y tr.ymin tr.ymax scrinfo.yres hy.1 hy.2 hyr.1 hyr.2.1 hyr.2.2 hyp
        (hyres h)

theorem injectTouchEvent_four_events_witness :
    ∃ w1, injectTouchEvent (fun _ => true) ⟨0, 480, 0, 0⟩ (rgb565 240 320) 1 120 77 quiet =
        some w1 ∧
      w1.touch = quiet.touch ++
        [⟨EV_KEY, BTN_TOUCH, 1⟩, ⟨EV_ABS, ABS_X, 240⟩, ⟨EV_ABS, ABS_Y, 77⟩, ⟨EV_SYN, 0, 0⟩] ∧
      w1.kbd = quiet.kbd :=
  injectTouchEvent_four_events (fun _ => true) ⟨0, 480, 0, 0⟩ (rgb565 240 320) 1 120 77 quiet
    (by decide) (by decide) (by decide) (by decide) (by decide) (by decide) (by decide)
    (by decide)

/-! ## C9: the device selected by `input_finder` -/

theorem first_match_ge (name : String) :
    ∀ (pats : List String) (j k : Nat), first_match name pats j = some k → j ≤ k := by
  intro pats
  induction pats with
  | nil => intro j k h; simp [first_match] at h
  | cons p ps ih =>
    intro j k h
    unfold first_match at h
    split at h
    · cases h; exact Nat.le_refl _
    · have := ih (j + 1) k h
      omega

theorem first_match_some (name : String) :
    ∀ (pats : List String) (j k : Nat), first_match name pats j = some k →
      (∃ pat, pats.get? (k - j) = some pat ∧ strstr name pat = true) ∧
      ∀ m, m < k - j → ∀ q, pats.get? m = some q → strstr name q = false := by
  intro pats
  induction pats with
  | nil => intro j k h; simp [first_match] at h
  | cons p ps ih =>
    intro j k h
    unfold first_match at h
    split at h
    · cases h
      rename_i hp
      refine ⟨⟨p, by simp, hp⟩, ?_⟩
      intro m hm
      omega
    · rename_i hp
      have hge := first_match_ge name ps (j + 1) k h
      obtain ⟨⟨pat, hpat, hs⟩, hlt⟩ := ih (j + 1) k h
      have e : k - j = (k - (j + 1)) + 1 := by omega
      refine ⟨⟨pat, by rw [e]; simpa using hpat, hs⟩, ?_⟩
      intro m hm q hq
      cases m with
      | zero =>
        simp at hq
        subst hq
        simpa using hp
      | succ m =>
        simp at hq
        exact hlt m (by omega) q (by simpa using hq)

theorem first_match_none (name : String) :
    ∀ (pats : List String) (j : Nat), first_match name pats j = none →
      ∀ m q, pats.get? m = some q → strstr name q = false := by
  intro pats
  induction pats with
  | nil => intro j _ m q hq; simp at hq
  | cons p ps ih =>
    intro j h m q hq
    unfold first_match at h
    split at h
    · cases h
    · rename_i hp
      cases m with
      | zero =>
        simp at hq
        subst hq
        simpa using hp
      | succ m =>
        simp at hq
        exact ih (j + 1) h m q (by simpa using hq)

theorem match_patterns_eq (name trypath : String) (path_size i : Nat) :
    ∀ (pats : List String) (j : Nat) (s : Finder),
      match_patterns name trypath path_size i pats j s =
        match first_match name pats j with
        | some k =>
          if s.key_id < 0 ∨ s.key_id > k then
            { device_id := i, key_id := k, path := strncpy_term trypath path_size }
          else s
        | none => s := by
  intro pats
  induction pats with
  | nil => intro j s; rfl
  | cons p ps ih =>
    intro j s
    unfold match_patterns first_match
    by_cases hp : strstr name p = true
    · simp only [hp, if_true]
      rw [ih]
      cases hf : first_match name ps (j + 1) with
      | none => rfl
      | some k =>
        have hge := first_match_ge name ps (j + 1) k hf
        dsimp only
        by_cases hu : s.key_id < 0 ∨ s.key_id > j
        · simp only [hu, if_true]
          rw [if_neg (by show ¬ ((j : Int) < 0 ∨ (j : Int) > k); omega)]
        · simp only [hu, if_false]
          rw [if_neg (by omega)]
    · simp only [hp, if_false]
      rw [ih]
      rfl

theorem strncpy_term_fits (src : String) (path_size : Nat) (h : src.length < path_size) :
    strncpy_term src path_size = src := by
  unfold strncpy_term
  have hl : src.data.length ≤ path_size - 1 := by
    have : src.data.length = src.length := rfl
    omega
  rw [List.take_of_length_le hl]

theorem finds_of_first_match (devices : Nat → Option String) (patterns : List String)
    (n k : Nat) (name : String) (hd : devices n = some name)
    (hf : first_match name patterns 0 = some k) :
    finds devices patterns n k ∧ ∀ j, finds devices patterns n j → k ≤ j := by
  obtain ⟨⟨pat, hpat, hs⟩, hlt⟩ := first_match_some name patterns 0 k hf
  refine ⟨⟨name, pat, hd, by simpa using hpat, hs⟩, ?_⟩
  intro j hj
  obtain ⟨name1, q, hd1, hq, hs1⟩ := hj
  rw [hd] at hd1
  cases hd1
  by_contra hlt1
  have := hlt j (by omega) q hq
  rw [this] at hs1
  cases hs1

theorem not_finds_of_first_match (devices : Nat → Option String) (patterns : List String)
    (n : Nat) (name : String) (hd : devices n = some name)
    (hf : first_match name patterns 0 = none) (j : Nat) : ¬ finds devices patterns n j := by
  intro hj
  obtain ⟨name1, q, hd1, hq, hs1⟩ := hj
  rw [hd] at hd1
  cases hd1
  have := first_match_none name patterns 0 hf j q hq
  rw [this] at hs1
  cases hs1

theorem finder_loop_inv (devices : Nat → Option String) (patterns : List String)
    (path_size : Nat) (path : String) :
    ∀ n, (∀ i, i < n → (DEV_FMT i).length < path_size) →
      (finder_loop devices patterns path_size ⟨-1, -1, path⟩ n = ⟨-1, -1, path⟩ ∧
        ∀ i j, i < n → ¬ finds devices patterns i j) ∨
      (∃ d k : Nat,
        finder_loop devices patterns path_size ⟨-1, -1, path⟩ n = ⟨(d : Int), (k : Int), DEV_FMT d⟩ ∧
        d < n ∧ finds devices patterns d k ∧
        ∀ i j, i < n → finds devices patterns i j → k ≤ j ∧ (i < d → k < j)) := by
  intro n
  induction n with
  | zero =>
    intro _
    left
    exact ⟨rfl, fun i j hi => by omega⟩
  | succ n ih =>
    intro hsize
    have ih := ih (fun i hi => hsize i (by omega))
    have hcopy := strncpy_term_fits (DEV_FMT n) path_size (hsize n (by omega))
    cases hd : devices n with
    | none =>
      have hno : ∀ j, ¬ finds devices patterns n j := by
        intro j hj
        obtain ⟨name1, q, hd1, _, _⟩ := hj
        rw [hd] at hd1
        cases hd1
      have hstep : finder_loop devices patterns path_size ⟨-1, -1, path⟩ (n + 1) =
          finder_loop devices patterns path_size ⟨-1, -1, path⟩ n := by
        simp only [finder_loop, hd]
      rw [hstep]
      rcases ih with ⟨h1, h2⟩ | ⟨d, k, h1, h2, h3, h4⟩
      · left
        refine ⟨h1, fun i j hi => ?_⟩
        by_cases hin : i = n
        · rw [hin]; exact hno j
        · exact h2 i j (by omega)
      · right
        refine ⟨d, k, h1, by omega, h3, fun i j hi hf => ?_⟩
        by_cases hin : i = n
        · rw [hin] at hf; exact absurd hf (hno j)
        · exact h4 i j (by omega) hf
    | some name =>
      have hstep : finder_loop devices patterns path_size ⟨-1, -1, path⟩ (n + 1) =
          match first_match name patterns 0 with
          | some k =>
            if (finder_loop devices patterns path_size ⟨-1, -1, path⟩ n).key_id < 0 ∨
                (finder_loop devices patterns path_size ⟨-1, -1, path⟩ n).key_id > k then
              { device_id := n, key_id := k, path := strncpy_term (DEV_FMT n) path_size }
            else finder_loop devices patterns path_size ⟨-1, -1, path⟩ n
          | none => finder_loop devices patterns path_size ⟨-1, -1, path⟩ n := by
        simp only [finder_loop, hd]
        rw [match_patterns_eq]
      rw [hstep, hcopy]
      cases hf : first_match name patterns 0 with
      | none =>
        have hno := not_finds_of_first_match devices patterns n name hd hf
        dsimp only
        rcases ih with ⟨h1, h2⟩ | ⟨d, k, h1, h2, h3, h4⟩
        · left
          refine ⟨h1, fun i j hi => ?_⟩
          by_cases hin : i = n
          · rw [hin]; exact hno j
          · exact h2 i j (by omega)
        · right
          refine ⟨d, k, h1, by omega, h3, fun i j hi hfi => ?_⟩
          by_cases hin : i = n
          · rw [hin] at hfi; exact absurd hfi (hno j)
          · exact h4 i j (by omega) hfi
      | some k1 =>
        obtain ⟨hfk, hmin⟩ := finds_of_first_match devices patterns n k1 name hd hf
        dsimp only
        right
        rcases ih with ⟨h1, h2⟩ | ⟨d, k, h1, h2, h3, h4⟩
        · rw [h1]
          rw [if_pos (by left; show (-1 : Int) < 0; omega)]
          refine ⟨n, k1, rfl, by omega, hfk, fun i j hi hfi => ?_⟩
          by_cases hin : i = n
          · rw [hin] at hfi
            exact ⟨hmin j hfi, fun h => by omega⟩
          · exact absurd hfi (h2 i j (by omega))
        · rw [h1]
          by_cases hk : k1 < k
          · rw [if_pos (by right; show (k : Int) > k1; omega)]
            refine ⟨n, k1, rfl, by omega, hfk, fun i j hi hfi => ?_⟩
            by_cases hin : i = n
            · rw [hin] at hfi
              exact ⟨hmin j hfi, fun h => by omega⟩
            · have := h4 i j (by omega) hfi
              exact ⟨by omega, fun _ => by omega⟩
          · rw [if_neg (by show ¬ ((k : Int) < 0 ∨ (k : Int) > k1); omega)]
            refine ⟨d, k, rfl, by omega, h3, fun i j hi hfi => ?_⟩
            by_cases hin : i = n
            · rw [hin] at hfi
              have := hmin j hfi
              exact ⟨by omega, fun h => by omega⟩
            · exact h4 i j (by omega) hfi

/-- C9. Provided the buffer `path` is large enough for the device paths,
`input_finder` returns `-1` and leaves `path` unchanged exactly when no readable
device among `0 .. max_num - 1` has a name that contains one of the patterns;
otherwise it returns a device `d` and a pattern index `k` exists such that
pattern `k` occurs in the name of `d`, no pattern of lower index occurs in the
name of any device, every device enumerated before `d` only contains patterns of
index above `k`, and `path` is the file path of `d`.  With the patterns
`["touch", "qwerty"]` and the devices "foo-touchscreen" and "bar-qwerty-kbd"
the touch device is selected in either enumeration order. -/
theorem input_finder_selects (devices : Nat → Option String) (max_num : Int)
    (patterns : List String) (path : String) (path_size : Nat)
    (hsize : ∀ i : Nat, (i : Int) < max_num → (DEV_FMT i).length < path_size) :
    ((input_finder devices max_num patterns path path_size = (-1, path)) ↔
      ∀ i j : Nat, (i : Int) < max_num → ¬ finds devices patterns i j) ∧
    ((∃ i j : Nat, (i : Int) < max_num ∧ finds devices patterns i j) →
      ∃ d k : Nat, input_finder devices max_num patterns path path_size = ((d : Int), DEV_FMT d) ∧
        (d : Int) < max_num ∧ finds devices patterns d k ∧
        ∀ i j : Nat, (i : Int) < max_num → finds devices patterns i j →
          k ≤ j ∧ (i < d → k < j)) ∧
    input_finder touch_first 5 ["touch", "qwerty"] "/dev/input/event1" 4096 =
      (0, "/dev/input/event0") ∧
    input_finder touch_second 5 ["touch", "qwerty"] "/dev/input/event1" 4096 =
      (1, "/dev/input/event1") := by
  have hinv := finder_loop_inv devices patterns path_size path max_num.toNat
    (fun i hi => hsize i (by omega))
  have hres : input_finder devices max_num patterns path path_size =
      ((finder_loop devices patterns path_size ⟨-1, -1, path⟩ max_num.toNat).device_id,
       (finder_loop devices patterns path_size ⟨-1, -1, path⟩ max_num.toNat).path) := rfl
  refine ⟨⟨?_, ?_⟩, ?_, by decide, by decide⟩
  · intro h i j hi hf
    rcases hinv with ⟨_, h2⟩ | ⟨d, k, h1, _, _, _⟩
    · exact h2 i j (by omega) hf
    · rw [hres, h1] at h
      have : ((d : Nat) : Int) = -1 := congrArg Prod.fst h
      omega
  · intro h
    rcases hinv with ⟨h1, _⟩ | ⟨d, k, _, h2, h3, _⟩
    · rw [hres, h1]
    · exact absurd h3 (h d k (by omega))
  · intro ⟨i, j, hi, hf⟩
    rcases hinv with ⟨_, h2⟩ | ⟨d, k, h1, h2, h3, h4⟩
    · exact absurd hf (h2 i j (by omega))
    · refine ⟨d, k, by rw [hres, h1], by omega, h3, fun i j hi hfi => h4 i j (by omega) hfi⟩

theorem input_finder_selects_witness :
    ((input_finder touch_first 5 ["touch", "qwerty"] "/dev/input/event1" 4096 =
        (-1, "/dev/input/event1")) ↔
      ∀ i j : Nat, (i : Int) < 5 → ¬ finds touch_first ["touch", "qwerty"] i j) ∧
    ((∃ i j : Nat, (i : Int) < 5 ∧ finds touch_first ["touch", "qwerty"] i j) →
      ∃ d k : Nat, input_finder touch_first 5 ["touch", "qwerty"] "/dev/input/event1" 4096 =
          ((d : Int), DEV_FMT d) ∧
        (d : Int) < 5 ∧ finds touch_first ["touch", "qwerty"] d k ∧
        ∀ i j : Nat, (i : Int) < 5 → finds touch_first ["touch", "qwerty"] i j →
          k ≤ j ∧ (i < d → k < j)) ∧
    input_finder touch_first 5 ["touch", "qwerty"] "/dev/input/event1" 4096 =
      (0, "/dev/input/event0") ∧
    input_finder touch_second 5 ["touch", "qwerty"] "/dev/input/event1" 4096 =
      (1, "/dev/input/event1") :=
  input_finder_selects touch_first 5 ["touch", "qwerty"] "/dev/input/event1" 4096
    (fun i hi => by
      have h5 : i < 5 := by omega
      interval_cases i <;> decide)

/-! ## C10: the scan that follows `blank_framebuffer` -/

theorem blank_loop_spec (st : Server) :
    ∀ n, (blank_loop n st).scrinfo = st.scrinfo ∧ (blank_loop n st).varblock = st.varblock ∧
      (∀ j, j < n → (blank_loop n st).fbbuf j = 0) ∧
      (∀ j, j < n → (blank_loop n st).vncbuf j = 0) := by
  intro n
  induction n with
  | zero => exact ⟨rfl, rfl, fun j h => by omega, fun j h => by omega⟩
  | succ n ih =>
    obtain ⟨h1, h2, h3, h4⟩ := ih
    refine ⟨h1, h2, ?_, ?_⟩
    · intro j hj
      show store (blank_loop n st).fbbuf n 0 j = 0
      unfold store
      split
      · rfl
      · exact h3 j (by omega)
    · intro j hj
      show store (blank_loop n st).vncbuf n 0 j = 0
      unfold store
      split
      · rfl
      · exact h4 j (by omega)

theorem scan_geometry_congr (ioctl : Option fb_var_screeninfo) (st st1 : Server)
    (h1 : st1.scrinfo = st.scrinfo) (h2 : st1.varblock = st.varblock) :
    scan_base ioctl st1 = scan_base ioctl st ∧ scan_cols ioctl st1 = scan_cols ioctl st ∧
    scan_lines ioctl st1 = scan_lines ioctl st ∧ row_words ioctl st1 = row_words ioctl st := by
  cases ioctl <;>
    simp [scan_base, scan_cols, scan_lines, row_words, scan_begin, get_framebuffer_yoffset,
      h1, h2]

theorem scan_geometry_same (ioctl : Option fb_var_screeninfo) (st : Server)
    (hgeo : ∀ v, ioctl = some v → v.xres = st.scrinfo.xres ∧ v.yres = st.scrinfo.yres)
    (hx : st.scrinfo.xres < 2147483648) (hy : st.scrinfo.yres < 2147483648) :
    scan_cols ioctl st = st.scrinfo.xres ∧ scan_lines ioctl st = st.scrinfo.yres := by
  cases ioctl with
  | none =>
    simp only [scan_cols, scan_lines, scan_begin, get_framebuffer_yoffset]
    rw [toInt_of_lt _ hx, toInt_of_lt _ hy]
    exact ⟨rfl, rfl⟩
  | some v =>
    obtain ⟨e1, e2⟩ := hgeo v rfl
    simp only [scan_cols, scan_lines, scan_begin, get_framebuffer_yoffset]
    rw [e1, e2, toInt_of_lt _ hx, toInt_of_lt _ hy]
    exact ⟨rfl, rfl⟩

theorem scan_word_fbbuf_other (fbmmap : Nat → Nat) (base : Nat) (x y : Int) (i j : Nat)
    (st : Server) (h : j ≠ i) : (scan_word fbmmap base x y i st).fbbuf j = st.fbbuf j := by
  unfold scan_word
  dsimp only
  split
  · show store st.fbbuf i _ j = _
    unfold store
    rw [if_neg h]
  · rfl

theorem scan_upto_fbbuf_ge (fbmmap : Nat → Nat) (base w : Nat) (st : Server) :
    ∀ n j, n ≤ j → (scan_upto fbmmap base w st n).fbbuf j = st.fbbuf j := by
  intro n
  induction n with
  | zero => intro j _; rfl
  | succ n ih =>
    intro j hj
    show (scan_word fbmmap base _ _ n (scan_upto fbmmap base w st n)).fbbuf j = _
    rw [scan_word_fbbuf_other _ _ _ _ _ _ _ (by omega)]
    exact ih j (by omega)

theorem track_anchored (x y : Int) (vb : varblock_t) (h1 : vb.min_x = 0) (h2 : vb.min_y = 0)
    (hx : 0 ≤ x) (hy : 0 ≤ y) :
    (track x y vb).min_x = 0 ∧ (track x y vb).min_y = 0 ∧
    (track x y vb).max_x = max vb.max_x x ∧ (track x y vb).max_y = max vb.max_y y := by
  unfold track
  dsimp only
  split_ifs <;> (try dsimp only at *) <;> refine ⟨?_, ?_, ?_, ?_⟩ <;> omega

theorem scan_upto_anchored (fbmmap : Nat → Nat) (base w : Nat) (st0 : Server) (hw : 0 < w)
    (h1 : st0.varblock.min_x = INT_MAX) (h2 : st0.varblock.min_y = INT_MAX)
    (h3 : st0.varblock.max_x = -1) (h4 : st0.varblock.max_y = -1)
    (hfirst : fbmmap (base + 0) ≠ st0.fbbuf 0) :
    ∀ n, 1 ≤ n →
      (scan_upto fbmmap base w st0 n).varblock.min_x = 0 ∧
      (scan_upto fbmmap base w st0 n).varblock.min_y = 0 ∧
      (scan_upto fbmmap base w st0 n).varblock.max_x ≤ ((2 * (w - 1) : Nat) : Int) ∧
      (scan_upto fbmmap base w st0 n).varblock.max_y ≤ (((n - 1) / w : Nat) : Int) := by
  intro n hn
  induction n, hn using Nat.le_induction with
  | base =>
    have hch := scan_word_changed fbmmap base ((0 : Nat) : Int) ((0 : Nat) : Int) 0 st0 hfirst
    have ht := track_sentinel ((0 : Nat) : Int) ((0 : Nat) : Int) st0.varblock
      h1 h2 h3 h4 (by simp [INT_MAX]) (by simp [INT_MAX])
    rw [← hch.1] at ht
    have e : scan_upto fbmmap base w st0 1 =
        scan_word fbmmap base ((0 : Nat) : Int) ((0 : Nat) : Int) 0 st0 := by
      show scan_word fbmmap base ((2 * (0 % w) : Nat) : Int) ((0 / w : Nat) : Int) 0 st0 = _
      rw [Nat.zero_mod, Nat.zero_div, Nat.mul_zero]
    rw [e]
    obtain ⟨t1, t2, t3, t4⟩ := ht
    have p1 : (0 : Int) ≤ ((2 * (w - 1) : Nat) : Int) := Int.ofNat_zero_le _
    have p2 : (0 : Int) ≤ (((1 - 1) / w : Nat) : Int) := Int.ofNat_zero_le _
    refine ⟨t1, t2, ?_, ?_⟩
    · rw [t3]
      exact le_trans (by decide) p1
    · rw [t4]
      exact le_trans (by decide) p2
  | succ n hn ih =>
    obtain ⟨i1, i2, i3, i4⟩ := ih
    have e : scan_upto fbmmap base w st0 (n + 1) =
        scan_word fbmmap base ((2 * (n % w) : Nat) : Int) ((n / w : Nat) : Int) n
          (scan_upto fbmmap base w st0 n) := rfl
    have hmod : n % w < w := Nat.mod_lt _ hw
    have hx : ((2 * (n % w) : Nat) : Int) ≤ ((2 * (w - 1) : Nat) : Int) :=
      Int.ofNat_le.mpr (by omega)
    have hy : (((n - 1) / w : Nat) : Int) ≤ ((n / w : Nat) : Int) :=
      Int.ofNat_le.mpr (Nat.div_le_div_right (by omega))
    have e2 : n + 1 - 1 = n := by omega
    rw [e, e2]
    by_cases hsame : fbmmap (base + n) = (scan_upto fbmmap base w st0 n).fbbuf n
    · rw [scan_word_same _ _ _ _ _ _ hsame]
      exact ⟨i1, i2, i3, le_trans i4 hy⟩
    · have hch := scan_word_changed fbmmap base ((2 * (n % w) : Nat) : Int)
        ((n / w : Nat) : Int) n _ hsame
      have ht := track_anchored ((2 * (n % w) : Nat) : Int) ((n / w : Nat) : Int)
        (scan_upto fbmmap base w st0 n).varblock i1 i2 (Int.ofNat_zero_le _)
        (Int.ofNat_zero_le _)
      rw [← hch.1] at ht
      obtain ⟨t1, t2, t3, t4⟩ := ht
      refine ⟨t1, t2, ?_, ?_⟩
      · rw [t3]
        exact max_le i3 hx
      · rw [t4]
        exact max_le (le_trans i4 hy) (le_refl _)

theorem scan_end_plain (s : Server) (h1 : s.varblock.min_x < INT_MAX)
    (h2 : 0 ≤ s.varblock.max_x) (h3 : 0 ≤ s.varblock.max_y) :
    scan_end s = (s, some ⟨s.varblock.min_x, s.varblock.min_y, s.varblock.max_x + 2,
      s.varblock.max_y + 1⟩) := by
  have a2 : ¬ s.varblock.max_x < 0 := by omega
  have a3 : ¬ s.varblock.max_y < 0 := by omega
  simp only [scan_end, h1, a2, a3, if_true, if_false]

theorem scan_upto_corners (fbmmap : Nat → Nat) (base w H : Nat) (st0 : Server) (hw : 0 < w)
    (hH : 0 < H)
    (h1 : st0.varblock.min_x = INT_MAX) (h2 : st0.varblock.min_y = INT_MAX)
    (h3 : st0.varblock.max_x = -1) (h4 : st0.varblock.max_y = -1)
    (hfirst : fbmmap (base + 0) ≠ st0.fbbuf 0)
    (hlast : fbmmap (base + (H * w - 1)) ≠ st0.fbbuf (H * w - 1)) :
    ∃ s1, scan_end (scan_upto fbmmap base w st0 (H * w)) =
      (s1, some ⟨0, 0, 2 * (w : Int), (H : Int)⟩) := by
  obtain ⟨h, rfl⟩ : ∃ h, H = h + 1 := ⟨H - 1, by omega⟩
  have eN : (h + 1) * w = h * w + w := by rw [Nat.add_mul, Nat.one_mul]
  by_cases hN : (h + 1) * w = 1
  · -- a screen of a single word
    have hw1 : w = 1 := by
      rcases Nat.eq_zero_or_pos h with h0 | hpos
      · subst h0; omega
      · have : w ≤ h * w := Nat.le_mul_of_pos_left w hpos
        omega
    have hh0 : h = 0 := by
      subst hw1
      omega
    subst hw1
    subst hh0
    have hch := scan_word_changed fbmmap base ((2 * (0 % 1) : Nat) : Int) ((0 / 1 : Nat) : Int)
      0 st0 hfirst
    have ht := track_sentinel ((2 * (0 % 1) : Nat) : Int) ((0 / 1 : Nat) : Int) st0.varblock
      h1 h2 h3 h4 (by simp [INT_MAX]) (by simp [INT_MAX])
    rw [← hch.1] at ht
    obtain ⟨s1, hs1, _⟩ := scan_end_first _ _ _ ht.1 ht.2.1 ht.2.2.1 ht.2.2.2
      (by simp [INT_MAX])
    exact ⟨s1, hs1⟩
  · have hN2 : 2 ≤ h * w + w := by omega
    have hanch := scan_upto_anchored fbmmap base w st0 hw h1 h2 h3 h4 hfirst
      (h * w + w - 1) (by omega)
    obtain ⟨i1, i2, i3, i4⟩ := hanch
    have e : scan_upto fbmmap base w st0 ((h + 1) * w) =
        scan_word fbmmap base ((2 * ((h * w + w - 1) % w) : Nat) : Int)
          (((h * w + w - 1) / w : Nat) : Int) (h * w + w - 1)
          (scan_upto fbmmap base w st0 (h * w + w - 1)) := by
      have e1 : (h + 1) * w = (h * w + w - 1) + 1 := by omega
      rw [e1]
      rfl
    have hidx : h * w + w - 1 = (w - 1) + w * h := by
      rw [Nat.mul_comm w h]
      omega
    have hmod : (h * w + w - 1) % w = w - 1 := by
      rw [hidx, Nat.add_mul_mod_self_left, Nat.mod_eq_of_lt (by omega)]
    have hdiv : (h * w + w - 1) / w = h := by
      rw [hidx, Nat.add_mul_div_left _ _ hw, Nat.div_eq_of_lt (by omega), Nat.zero_add]
    have hle : (h * w + w - 1 - 1) / w ≤ h :=
      le_of_le_of_eq (Nat.div_le_div_right (Nat.sub_le _ 1)) hdiv
    rw [eN] at hlast
    have hd : fbmmap (base + (h * w + w - 1)) ≠
        (scan_upto fbmmap base w st0 (h * w + w - 1)).fbbuf (h * w + w - 1) := by
      rw [scan_upto_fbbuf_ge fbmmap base w st0 _ _ (Nat.le_refl _)]
      exact hlast
    have hch := scan_word_changed fbmmap base ((2 * ((h * w + w - 1) % w) : Nat) : Int)
      (((h * w + w - 1) / w : Nat) : Int) (h * w + w - 1) _ hd
    have ht := track_anchored ((2 * ((h * w + w - 1) % w) : Nat) : Int)
      (((h * w + w - 1) / w : Nat) : Int)
      (scan_upto fbmmap base w st0 (h * w + w - 1)).varblock i1 i2 (Int.ofNat_zero_le _)
      (Int.ofNat_zero_le _)
    rw [← hch.1, ← e] at ht
    obtain ⟨t1, t2, t3, t4⟩ := ht
    rw [hmod] at t3
    rw [hdiv] at t4
    have hleI : (((h * w + w - 1 - 1) / w : Nat) : Int) ≤ (h : Int) := Int.ofNat_le.mpr hle
    have m1 : (scan_upto fbmmap base w st0 ((h + 1) * w)).varblock.max_x =
        ((2 * (w - 1) : Nat) : Int) := by
      rw [t3]
      exact max_eq_right i3
    have m2 : (scan_upto fbmmap base w st0 ((h + 1) * w)).varblock.max_y = (h : Int) := by
      rw [t4]
      exact max_eq_right (le_trans i4 hleI)
    refine ⟨scan_upto fbmmap base w st0 ((h + 1) * w), ?_⟩
    rw [scan_end_plain _ (by rw [t1]; simp [INT_MAX]) (by rw [m1]; exact Int.ofNat_zero_le _)
      (by rw [m2]; exact Int.ofNat_zero_le _), t1, t2, m1, m2]
    have c1 : ((2 * (w - 1) : Nat) : Int) + 2 = 2 * (w : Int) := by omega
    have c2 : (h : Int) + 1 = ((h + 1 : Nat) : Int) := by omega
    rw [c1, c2]

/-- C10 as stated fails: after `blank_framebuffer` on a 4 × 2 screen, a scan of
an all-zero native frame finds no changed word and reports no rectangle, not
the full screen `(0, 0, 4, 2)`. -/
theorem blank_then_black_frame :
    (blank_framebuffer (demo_server 7)).bind
        (fun st1 => (update_screen none (fun _ => 0) st1).map Prod.snd) = some none ∧
    (blank_framebuffer (demo_server 7)).bind
        (fun st1 => (update_screen none (fun _ => 0) st1).map Prod.snd) ≠
      some (some ⟨0, 0, 4, 2⟩) := by
  decide

/-- C10, amended.  On a non-empty screen of even width with two pixels per word,
whose word count fits the arithmetic of `blank_framebuffer` and whose geometry
the query leaves as it is, `blank_framebuffer` returns, and the next
`update_screen` reports no rectangle when every word of the native frame is
zero, and reports the full screen `(0, 0, xres, yres)` when the first (top-left)
and the last (bottom-right) word of the native frame are both non-zero. -/
theorem blank_then_update_screen (ioctl : Option fb_var_screeninfo) (fbmmap : Nat → Nat)
    (st : Server) (hppi : st.varblock.pixels_per_int = 2)
    (hgeo : ∀ v, ioctl = some v → v.xres = st.scrinfo.xres ∧ v.yres = st.scrinfo.yres)
    (heven : st.scrinfo.xres % 2 = 0) (hx0 : 0 < st.scrinfo.xres) (hy0 : 0 < st.scrinfo.yres)
    (hx : st.scrinfo.xres < 2147483648) (hy : st.scrinfo.yres < 2147483648)
    (hsize : st.scrinfo.xres * st.scrinfo.yres < 4294967296) :
    ∃ st1, blank_framebuffer st = some st1 ∧
      ((∀ i, i < st.scrinfo.yres * (st.scrinfo.xres / 2) →
          fbmmap (scan_base ioctl st + i) = 0) →
        ∃ st2, update_screen ioctl fbmmap st1 = some (st2, none)) ∧
      (fbmmap (scan_base ioctl st + 0) ≠ 0 →
        fbmmap (scan_base ioctl st + (st.scrinfo.yres * (st.scrinfo.xres / 2) - 1)) ≠ 0 →
        ∃ st2, update_screen ioctl fbmmap st1 =
          some (st2, some ⟨0, 0, (st.scrinfo.xres : Int), (st.scrinfo.yres : Int)⟩)) := by
  -- the number of words blanked
  have hw2 : st.scrinfo.xres = 2 * (st.scrinfo.xres / 2) := by omega
  have hprod : st.scrinfo.xres * st.scrinfo.yres =
      2 * (st.scrinfo.yres * (st.scrinfo.xres / 2)) := by
    calc st.scrinfo.xres * st.scrinfo.yres
        = (2 * (st.scrinfo.xres / 2)) * st.scrinfo.yres := by rw [← hw2]
      _ = 2 * (st.scrinfo.yres * (st.scrinfo.xres / 2)) := by ring
  have hn : (toInt ((st.scrinfo.xres * st.scrinfo.yres % 4294967296) /
      st.varblock.pixels_per_int)).toNat = st.scrinfo.yres * (st.scrinfo.xres / 2) := by
    rw [hppi, Nat.mod_eq_of_lt hsize, hprod, Nat.mul_div_cancel_left _ (by decide),
      toInt_of_lt _ (by omega)]
    rfl
  have hblank : blank_framebuffer st =
      some (blank_loop (st.scrinfo.yres * (st.scrinfo.xres / 2)) st) := by
    unfold blank_framebuffer
    rw [if_neg (by omega)]
    dsimp only
    rw [hn]
  obtain ⟨b1, b2, b3, _⟩ := blank_loop_spec st (st.scrinfo.yres * (st.scrinfo.xres / 2))
  obtain ⟨g1, g2, g3, g4⟩ := scan_geometry_congr ioctl st
    (blank_loop (st.scrinfo.yres * (st.scrinfo.xres / 2)) st) b1 b2
  obtain ⟨c1, c2⟩ := scan_geometry_same ioctl st hgeo hx hy
  have hrw : row_words ioctl st = st.scrinfo.xres / 2 := by
    unfold row_words
    rw [c1]
    omega
  have hww : 0 < st.scrinfo.xres / 2 := by omega
  have hb := scan_begin_bounds ioctl (blank_loop (st.scrinfo.yres * (st.scrinfo.xres / 2)) st)
  have hfb := scan_begin_fbbuf ioctl (blank_loop (st.scrinfo.yres * (st.scrinfo.xres / 2)) st)
  have hupd := update_screen_eq ioctl fbmmap
    (blank_loop (st.scrinfo.yres * (st.scrinfo.xres / 2)) st) (by rw [b2]; exact hppi)
  rw [g1, g3, g4, c2, hrw] at hupd
  refine ⟨_, hblank, ?_, ?_⟩
  · intro hzero
    have hst := scan_upto_stable fbmmap (scan_base ioctl st) (st.scrinfo.xres / 2)
      (scan_begin ioctl (blank_loop (st.scrinfo.yres * (st.scrinfo.xres / 2)) st)).1 0
      (st.scrinfo.yres * (st.scrinfo.xres / 2)) (Nat.zero_le _)
      (fun i _ h => by
        show _ = (scan_begin ioctl _).1.fbbuf i
        rw [hfb, b3 i h]
        exact hzero i h)
    rw [hst] at hupd
    have hend : scan_end
        (scan_begin ioctl (blank_loop (st.scrinfo.yres * (st.scrinfo.xres / 2)) st)).1 =
        ((scan_begin ioctl (blank_loop (st.scrinfo.yres * (st.scrinfo.xres / 2)) st)).1,
          none) := by
      simp [scan_end, hb.1]
    have hupd2 : update_screen ioctl fbmmap
        (blank_loop (st.scrinfo.yres * (st.scrinfo.xres / 2)) st) =
        some (scan_end
          (scan_begin ioctl (blank_loop (st.scrinfo.yres * (st.scrinfo.xres / 2)) st)).1) :=
      hupd
    rw [hend] at hupd2
    exact ⟨_, hupd2⟩
  · intro hfirst hlast
    have hN : 0 < st.scrinfo.yres * (st.scrinfo.xres / 2) := Nat.mul_pos hy0 hww
    obtain ⟨s1, hs1⟩ := scan_upto_corners fbmmap (scan_base ioctl st) (st.scrinfo.xres / 2)
      st.scrinfo.yres
      (scan_begin ioctl (blank_loop (st.scrinfo.yres * (st.scrinfo.xres / 2)) st)).1 hww hy0
      hb.1 hb.2.1 hb.2.2.1 hb.2.2.2
      (by rw [hfb, b3 0 hN]; exact hfirst)
      (by rw [hfb, b3 _ (by omega)]; exact hlast)
    rw [hs1] at hupd
    have cx : 2 * ((st.scrinfo.xres / 2 : Nat) : Int) = (st.scrinfo.xres : Int) := by omega
    rw [cx] at hupd
    exact ⟨s1, hupd⟩

theorem blank_then_update_screen_witness :
    ∃ st1, blank_framebuffer (demo_server 7) = some st1 ∧
      ((∀ i, i < (demo_server 7).scrinfo.yres * ((demo_server 7).scrinfo.xres / 2) →
          frame_corners (scan_base none (demo_server 7) + i) = 0) →
        ∃ st2, update_screen none frame_corners st1 = some (st2, none)) ∧
      (frame_corners (scan_base none (demo_server 7) + 0) ≠ 0 →
        frame_corners (scan_base none (demo_server 7) +
          ((demo_server 7).scrinfo.yres * ((demo_server 7).scrinfo.xres / 2) - 1)) ≠ 0 →
        ∃ st2, update_screen none frame_corners st1 =
          some (st2, some ⟨0, 0, ((demo_server 7).scrinfo.xres : Int),
            ((demo_server 7).scrinfo.yres : Int)⟩)) :=
  blank_then_update_screen none frame_corners (demo_server 7) rfl (fun _ h => by cases h)
    (by decide) (by decide) (by decide) (by decide) (by decide) (by decide)

/-! ## C11: the remote buffer is the transcoded snapshot -/

theorem track_offsets (x y : Int) (vb : varblock_t) :
    (track x y vb).r_offset = vb.r_offset ∧ (track x y vb).g_offset = vb.g_offset ∧
    (track x y vb).b_offset = vb.b_offset ∧
    (track x y vb).pixels_per_int = vb.pixels_per_int := by
  unfold track
  dsimp only
  split_ifs <;> exact ⟨rfl, rfl, rfl, rfl⟩

theorem transcode_congr (st st1 : Server)
    (h1 : st1.varblock.r_offset = st.varblock.r_offset)
    (h2 : st1.varblock.g_offset = st.varblock.g_offset)
    (h3 : st1.varblock.b_offset = st.varblock.b_offset) (p : Nat) :
    transcode st1 p = transcode st p := by
  unfold transcode
  rw [h1, h2, h3]

theorem scan_word_frame (fbmmap : Nat → Nat) (base : Nat) (x y : Int) (i : Nat) (st : Server) :
    (scan_word fbmmap base x y i st).scrinfo = st.scrinfo ∧
    (scan_word fbmmap base x y i st).varblock.r_offset = st.varblock.r_offset ∧
    (scan_word fbmmap base x y i st).varblock.g_offset = st.varblock.g_offset ∧
    (scan_word fbmmap base x y i st).varblock.b_offset = st.varblock.b_offset ∧
    (scan_word fbmmap base x y i st).varblock.pixels_per_int = st.varblock.pixels_per_int := by
  obtain ⟨t1, t2, t3, t4⟩ := track_offsets x y st.varblock
  unfold scan_word
  dsimp only
  split
  · exact ⟨rfl, t1, t2, t3, t4⟩
  · exact ⟨rfl, rfl, rfl, rfl, rfl⟩

theorem scan_word_fbbuf_at (fbmmap : Nat → Nat) (base : Nat) (x y : Int) (i : Nat)
    (st : Server) : (scan_word fbmmap base x y i st).fbbuf i = fbmmap (base + i) := by
  by_cases h : fbmmap (base + i) = st.fbbuf i
  · rw [scan_word_same _ _ _ _ _ _ h, h]
  · rw [(scan_word_changed _ _ _ _ _ _ h).2]
    unfold store
    rw [if_pos rfl]

theorem scan_word_coherent (fbmmap : Nat → Nat) (base : Nat) (x y : Int) (i : Nat)
    (st : Server) (h : coherent st) : coherent (scan_word fbmmap base x y i st) := by
  obtain ⟨_, f1, f2, f3, _⟩ := scan_word_frame fbmmap base x y i st
  intro j
  rw [transcode_congr st _ f1 f2 f3]
  by_cases hs : fbmmap (base + i) = st.fbbuf i
  · rw [scan_word_same _ _ _ _ _ _ hs]
    exact h j
  · have hv : (scan_word fbmmap base x y i st).vncbuf =
        store st.vncbuf i (transcode st (substitute (fbmmap (base + i)))) := by
      simp only [scan_word, hs, ne_eq, not_false_eq_true, if_true, transcode, substitute]
    rw [hv, (scan_word_changed _ _ _ _ _ _ hs).2]
    unfold store
    by_cases hj : j = i
    · rw [if_pos hj, if_pos hj]
    · rw [if_neg hj, if_neg hj]
      exact h j

theorem scan_upto_frame (fbmmap : Nat → Nat) (base w : Nat) (st : Server) :
    ∀ n, (scan_upto fbmmap base w st n).scrinfo = st.scrinfo ∧
      (scan_upto fbmmap base w st n).varblock.r_offset = st.varblock.r_offset ∧
      (scan_upto fbmmap base w st n).varblock.g_offset = st.varblock.g_offset ∧
      (scan_upto fbmmap base w st n).varblock.b_offset = st.varblock.b_offset ∧
      (scan_upto fbmmap base w st n).varblock.pixels_per_int = st.varblock.pixels_per_int := by
  intro n
  induction n with
  | zero => exact ⟨rfl, rfl, rfl, rfl, rfl⟩
  | succ n ih =>
    obtain ⟨a1, a2, a3, a4, a5⟩ := ih
    obtain ⟨b1, b2, b3, b4, b5⟩ := scan_word_frame fbmmap base ((2 * (n % w) : Nat) : Int)
      ((n / w : Nat) : Int) n (scan_upto fbmmap base w st n)
    exact ⟨b1.trans a1, b2.trans a2, b3.trans a3, b4.trans a4, b5.trans a5⟩

theorem scan_upto_coherent (fbmmap : Nat → Nat) (base w : Nat) (st : Server)
    (h : coherent st) : ∀ n, coherent (scan_upto fbmmap base w st n) := by
  intro n
  induction n with
  | zero => exact h
  | succ n ih => exact scan_word_coherent fbmmap base _ _ n _ ih

theorem scan_upto_fbbuf_lt (fbmmap : Nat → Nat) (base w : Nat) (st : Server) :
    ∀ n i, i < n → (scan_upto fbmmap base w st n).fbbuf i = fbmmap (base + i) := by
  intro n
  induction n with
  | zero => intro i hi; omega
  | succ n ih =>
    intro i hi
    show (scan_word fbmmap base _ _ n (scan_upto fbmmap base w st n)).fbbuf i = _
    by_cases hin : i = n
    · rw [hin]
      exact scan_word_fbbuf_at fbmmap base _ _ n _
    · rw [scan_word_fbbuf_other _ _ _ _ _ _ _ hin]
      exact ih i (by omega)

theorem scan_begin_frame (ioctl : Option fb_var_screeninfo) (st : Server) :
    (scan_begin ioctl st).1.varblock.r_offset = st.varblock.r_offset ∧
    (scan_begin ioctl st).1.varblock.g_offset = st.varblock.g_offset ∧
    (scan_begin ioctl st).1.varblock.b_offset = st.varblock.b_offset ∧
    (scan_begin ioctl st).1.varblock.pixels_per_int = st.varblock.pixels_per_int := by
  cases ioctl <;> exact ⟨rfl, rfl, rfl, rfl⟩

theorem scan_end_frame (s : Server) :
    (scan_end s).1.scrinfo = s.scrinfo ∧ (scan_end s).1.fbbuf = s.fbbuf ∧
    (scan_end s).1.vncbuf = s.vncbuf ∧
    (scan_end s).1.varblock.r_offset = s.varblock.r_offset ∧
    (scan_end s).1.varblock.g_offset = s.varblock.g_offset ∧
    (scan_end s).1.varblock.b_offset = s.varblock.b_offset ∧
    (scan_end s).1.varblock.pixels_per_int = s.varblock.pixels_per_int := by
  unfold scan_end
  dsimp only
  split_ifs <;> exact ⟨rfl, rfl, rfl, rfl, rfl, rfl, rfl⟩

theorem scan_begin_again (ioctl : Option fb_var_screeninfo) (st st1 : Server)
    (h1 : st1.scrinfo = (scan_begin ioctl st).1.scrinfo)
    (h2 : st1.varblock.pixels_per_int = st.varblock.pixels_per_int) :
    scan_base ioctl st1 = scan_base ioctl st ∧ scan_lines ioctl st1 = scan_lines ioctl st ∧
    row_words ioctl st1 = row_words ioctl st := by
  cases ioctl with
  | none =>
    have e : st1.scrinfo = st.scrinfo := h1
    simp [scan_base, scan_cols, scan_lines, row_words, scan_begin, get_framebuffer_yoffset,
      e, h2]
  | some v =>
    simp [scan_base, scan_cols, scan_lines, row_words, scan_begin, get_framebuffer_yoffset,
      h2]

theorem transcode_zero (st : Server) : transcode st (substitute 0) = 0 := by
  have e : substitute 0 = 0 := by decide
  rw [e]
  simp [transcode, PIXEL_FB_TO_RFB]

theorem blank_loop_coherent (st : Server) (h : coherent st) :
    ∀ n, coherent (blank_loop n st) := by
  intro n
  induction n with
  | zero => exact h
  | succ n ih =>
    intro j
    have hz := transcode_zero (blank_loop n st)
    show store (blank_loop n st).vncbuf n 0 j =
      transcode (blank_loop n st) (substitute (store (blank_loop n st).fbbuf n 0 j))
    unfold store
    by_cases hj : j = n
    · rw [if_pos hj, if_pos hj, hz]
    · rw [if_neg hj, if_neg hj]
      exact ih j

/-- C11. With `S` the compatibility substitution and `T` the transcoding with
the configured offsets, the predicate "every word of `vncbuf` is `T (S _)` of the
word of `fbbuf` at the same index" holds for the zeroed buffers that
`init_fb_server` allocates, is preserved by `blank_framebuffer`, and is preserved
by `update_screen`; after `update_screen` on a native frame every scanned word
of `fbbuf` is the raw word of the frame, every scanned word of `vncbuf` is the
transcoded (substituted) word of the frame, and a scan of the same frame
repeated at once reports no rectangle. -/
theorem buffers_coherent :
    (∀ scrinfo st, init_fb_server scrinfo = some st → coherent st) ∧
    (∀ st st1, coherent st → blank_framebuffer st = some st1 → coherent st1) ∧
    (∀ ioctl fbmmap st, st.varblock.pixels_per_int = 2 → coherent st →
      ∃ st1 r, update_screen ioctl fbmmap st = some (st1, r) ∧ coherent st1 ∧
        (∀ i, i < scan_lines ioctl st * row_words ioctl st →
          st1.fbbuf i = fbmmap (scan_base ioctl st + i)) ∧
        (∀ i, i < scan_lines ioctl st * row_words ioctl st →
          st1.vncbuf i = transcode st1 (substitute (fbmmap (scan_base ioctl st + i)))) ∧
        ∃ st2, update_screen ioctl fbmmap st1 = some (st2, none)) := by
  refine ⟨?_, ?_, ?_⟩
  · intro scrinfo st hinit
    unfold init_fb_server at hinit
    split at hinit
    · cases hinit
    · cases hinit
      intro i
      exact (transcode_zero _).symm
  · intro st st1 hc hb
    unfold blank_framebuffer at hb
    split at hb
    · cases hb
    · cases hb
      exact blank_loop_coherent st hc _
  · intro ioctl fbmmap st hppi hc
    have hupd := update_screen_eq ioctl fbmmap st hppi
    obtain ⟨b1, b2, b3, b4⟩ := scan_begin_frame ioctl st
    have hc0 : coherent (scan_begin ioctl st).1 := by
      intro i
      rw [transcode_congr st _ b1 b2 b3, scan_begin_vncbuf, scan_begin_fbbuf]
      exact hc i
    have hcN := scan_upto_coherent fbmmap (scan_base ioctl st) (row_words ioctl st)
      (scan_begin ioctl st).1 hc0 (scan_lines ioctl st * row_words ioctl st)
    obtain ⟨u1, u2, u3, u4, u5⟩ := scan_upto_frame fbmmap (scan_base ioctl st)
      (row_words ioctl st) (scan_begin ioctl st).1 (scan_lines ioctl st * row_words ioctl st)
    obtain ⟨e1, e2, e3, e4, e5, e6, e7⟩ := scan_end_frame
      (scan_upto fbmmap (scan_base ioctl st) (row_words ioctl st) (scan_begin ioctl st).1
        (scan_lines ioctl st * row_words ioctl st))
    have hfb := scan_upto_fbbuf_lt fbmmap (scan_base ioctl st) (row_words ioctl st)
      (scan_begin ioctl st).1 (scan_lines ioctl st * row_words ioctl st)
    -- the state returned by the first scan
    have hc1 : coherent (scan_end (scan_upto fbmmap (scan_base ioctl st) (row_words ioctl st)
        (scan_begin ioctl st).1 (scan_lines ioctl st * row_words ioctl st))).1 := by
      intro i
      rw [transcode_congr _ _ e4 e5 e6, e2, e3]
      exact hcN i
    have hf1 : ∀ i, i < scan_lines ioctl st * row_words ioctl st →
        (scan_end (scan_upto fbmmap (scan_base ioctl st) (row_words ioctl st)
          (scan_begin ioctl st).1 (scan_lines ioctl st * row_words ioctl st))).1.fbbuf i =
        fbmmap (scan_base ioctl st + i) := by
      intro i hi
      rw [e2]
      exact hfb i hi
    -- the second scan of the same frame
    obtain ⟨g1, g2, g3⟩ := scan_begin_again ioctl st
      (scan_end (scan_upto fbmmap (scan_base ioctl st) (row_words ioctl st)
        (scan_begin ioctl st).1 (scan_lines ioctl st * row_words ioctl st))).1
      (e1.trans u1) ((e7.trans u5).trans b4)
    have hupd2 := update_screen_eq ioctl fbmmap
      (scan_end (scan_upto fbmmap (scan_base ioctl st) (row_words ioctl st)
        (scan_begin ioctl st).1 (scan_lines ioctl st * row_words ioctl st))).1
      (((e7.trans u5).trans b4).trans hppi)
    rw [g1, g2, g3] at hupd2
    have hst := scan_upto_stable fbmmap (scan_base ioctl st) (row_words ioctl st)
      (scan_begin ioctl (scan_end (scan_upto fbmmap (scan_base ioctl st) (row_words ioctl st)
        (scan_begin ioctl st).1 (scan_lines ioctl st * row_words ioctl st))).1).1 0
      (scan_lines ioctl st * row_words ioctl st) (Nat.zero_le _)
      (fun i _ h => by
        show _ = (scan_begin ioctl _).1.fbbuf i
        rw [scan_begin_fbbuf]
        exact (hf1 i h).symm)
    rw [hst] at hupd2
    have hb2 := scan_begin_bounds ioctl
      (scan_end (scan_upto fbmmap (scan_base ioctl st) (row_words ioctl st)
        (scan_begin ioctl st).1 (scan_lines ioctl st * row_words ioctl st))).1
    have hend : ∀ s : Server, s.varblock.min_x = INT_MAX → scan_end s = (s, none) := by
      intro s hs
      simp [scan_end, hs]
    have hupd3 : update_screen ioctl fbmmap
        (scan_end (scan_upto fbmmap (scan_base ioctl st) (row_words ioctl st)
          (scan_begin ioctl st).1 (scan_lines ioctl st * row_words ioctl st))).1 =
        some (scan_end (scan_begin ioctl (scan_end (scan_upto fbmmap (scan_base ioctl st)
          (row_words ioctl st) (scan_begin ioctl st).1
          (scan_lines ioctl st * row_words ioctl st))).1).1) := hupd2
    rw [hend _ hb2.1] at hupd3
    refine ⟨_, _, hupd, hc1, hf1, ?_, ⟨_, hupd3⟩⟩
    intro i hi
    rw [← hf1 i hi]
    exact hc1 i

theorem buffers_coherent_witness :
    ∃ st1 r, update_screen none frame_stairs (demo_server 0) = some (st1, r) ∧ coherent st1 ∧
      (∀ i, i < scan_lines none (demo_server 0) * row_words none (demo_server 0) →
        st1.fbbuf i = frame_stairs (scan_base none (demo_server 0) + i)) ∧
      (∀ i, i < scan_lines none (demo_server 0) * row_words none (demo_server 0) →
        st1.vncbuf i =
          transcode st1 (substitute (frame_stairs (scan_base none (demo_server 0) + i)))) ∧
      ∃ st2, update_screen none frame_stairs st1 = some (st2, none) :=
  buffers_coherent.2.2 none frame_stairs (demo_server 0) rfl
    (fun _ => (transcode_zero (demo_server 0)).symm)

/-! ## C12: the indices of the table lookups -/

theorem isNone_false_ne_none (o : Option KeyResult) (h : o.isNone = false) : o ≠ none := by
  intro e
  rw [e] at h
  cases h

theorem keysym2scancode_in_bounds (pk : PlatformKeys) (key : Nat) (hkey : key < 4294967296)
    (hne : key ≠ 0xFFEE) : keysym2scancode pk key ≠ none := by
  by_cases hk : key < 2147483648
  · by_cases h1 : 0x30 ≤ key ∧ key ≤ 0x39
    · obtain ⟨a, b⟩ := h1
      interval_cases key <;> exact isNone_false_ne_none _ rfl
    · by_cases h2 : 0xFF50 ≤ key ∧ key ≤ 0xFF58
      · obtain ⟨a, b⟩ := h2
        interval_cases key <;> exact isNone_false_ne_none _ rfl
      · by_cases h3 : 0xFFE1 ≤ key ∧ key ≤ 0xFFEE
        · obtain ⟨a, b⟩ := h3
          interval_cases key <;> first | exact isNone_false_ne_none _ rfl | exact absurd rfl hne
        · by_cases h4 : 0x41 ≤ key ∧ key ≤ 0x5A
          · obtain ⟨a, b⟩ := h4
            interval_cases key <;> exact isNone_false_ne_none _ rfl
          · by_cases h5 : 0x61 ≤ key ∧ key ≤ 0x7A
            · obtain ⟨a, b⟩ := h5
              interval_cases key <;> exact isNone_false_ne_none _ rfl
            · have e := toInt_of_lt key hk
              simp only [keysym2scancode, e]
              rw [if_neg (by omega), if_neg (by omega), if_neg (by omega), if_neg (by omega),
                if_neg (by omega)]
              exact Option.some_ne_none _
  · have e := toInt_neg key (by omega) hkey
    simp only [keysym2scancode]
    rw [if_neg (by omega), if_neg (by omega), if_neg (by omega), if_neg (by omega),
      if_pos e]
    exact Option.some_ne_none _

/-- C12, evaluated where it fails.  The lookups in the 9-entry navigation table
and in the 26-entry letter table always use an index inside the table, and so
does the lookup in the 14-entry modifier table for the symbols
`0xFFE1 .. 0xFFED`; but for the symbol `0xFFEE` the index `code & 0xF` is 14, the
length of the modifier table, so that lookup is outside the table: it is the
one key symbol for which `keysym2scancode` has no defined result. -/
theorem keysym2scancode_lookup_indices (pk : PlatformKeys) :
    (∀ key, 0xFF50 ≤ key → key ≤ 0xFF58 → key &&& 0xF < (nav_map pk).length) ∧
    (∀ key, (0x41 ≤ key ∧ key ≤ 0x5A) ∨ (0x61 ≤ key ∧ key ≤ 0x7A) →
      0x41 ≤ key &&& 0x5F ∧ (key &&& 0x5F) - 0x41 < letter_map.length) ∧
    (∀ key, 0xFFE1 ≤ key → key ≤ 0xFFED → key &&& 0xF < mod_map.length) ∧
    (0xFFEE &&& 0xF = 14 ∧ mod_map.length = 14) ∧
    (∀ key, key < 4294967296 → (keysym2scancode pk key = none ↔ key = 0xFFEE)) := by
  refine ⟨?_, ?_, ?_, ⟨rfl, rfl⟩, ?_⟩
  · intro key a b
    have hl : (nav_map pk).length = 9 := rfl
    rw [hl]
    interval_cases key <;> decide
  · intro key h
    rcases h with ⟨a, b⟩ | ⟨a, b⟩ <;> interval_cases key <;> decide
  · intro key a b
    interval_cases key <;> decide
  · intro key hkey
    constructor
    · intro h
      by_contra hne
      exact keysym2scancode_in_bounds pk key hkey hne h
    · intro h
      rw [h]
      rfl

/-! ## C13: which edges of the reported rectangle are tight -/

theorem track_fields (x y : Int) (vb : varblock_t) :
    (track x y vb).min_x = (if x < vb.min_x then x else vb.min_x) ∧
    (track x y vb).max_x =
      (if x < vb.min_x then vb.max_x else if x > vb.max_x then x else vb.max_x) ∧
    (track x y vb).min_y = (if y < vb.min_y then y else vb.min_y) ∧
    (track x y vb).max_y =
      (if y < vb.min_y then vb.max_y else if y > vb.max_y then y else vb.max_y) := by
  unfold track
  dsimp only
  split_ifs <;> (try dsimp only at *) <;> refine ⟨?_, ?_, ?_, ?_⟩ <;> rfl

theorem scan_end_fields (s : Server) (h : s.varblock.min_x < INT_MAX) :
    (scan_end s).1.varblock.min_x = s.varblock.min_x ∧
    (scan_end s).1.varblock.min_y = s.varblock.min_y ∧
    (scan_end s).1.varblock.max_x =
      (if s.varblock.max_x < 0 then s.varblock.min_x else s.varblock.max_x) ∧
    (scan_end s).1.varblock.max_y =
      (if s.varblock.max_y < 0 then s.varblock.min_y else s.varblock.max_y) ∧
    (scan_end s).2 = some ⟨(scan_end s).1.varblock.min_x, (scan_end s).1.varblock.min_y,
      (scan_end s).1.varblock.max_x + 2, (scan_end s).1.varblock.max_y + 1⟩ := by
  unfold scan_end
  rw [if_pos h]
  dsimp only
  split_ifs <;> exact ⟨rfl, rfl, rfl, rfl, rfl⟩

theorem word_col_nonneg (w i : Nat) : 0 ≤ word_col w i := Int.ofNat_zero_le _

theorem word_row_nonneg (w i : Nat) : 0 ≤ word_row w i := Int.ofNat_zero_le _

theorem word_row_mono (w i j : Nat) (h : i ≤ j) : word_row w i ≤ word_row w j :=
  Int.ofNat_le.mpr (Nat.div_le_div_right h)

theorem bounds_track_skip (ch : Nat → Prop) (w n : Nat) (vb : varblock_t) (hn : ¬ ch n)
    (h : bounds_track ch w n vb) : bounds_track ch w (n + 1) vb := by
  have hlt : ∀ i, i < n + 1 → ch i → i < n := by
    intro i hi hc
    by_contra hge
    have e : i = n := by omega
    rw [e] at hc
    exact hn hc
  obtain ⟨⟨i1, l1, c1, e1⟩, a2, a3, ⟨i4, l4, c4, e4⟩, a5, a6⟩ := h
  refine ⟨⟨i1, by omega, c1, e1⟩, fun i hi hc => a2 i (hlt i hi hc) hc, ?_,
    ⟨i4, by omega, c4, e4⟩, fun i hi hc => a5 i (hlt i hi hc) hc, ?_⟩
  · rcases a3 with h3 | ⟨i3, l3, c3, e3⟩
    · exact Or.inl h3
    · exact Or.inr ⟨i3, by omega, c3, e3⟩
  · rcases a6 with ⟨h6, h7⟩ | ⟨⟨i6, l6, c6, e6⟩, h7⟩
    · exact Or.inl ⟨h6, fun i hi hc => h7 i (hlt i hi hc) hc⟩
    · exact Or.inr ⟨⟨i6, by omega, c6, e6⟩, fun i hi hc => h7 i (hlt i hi hc) hc⟩

theorem bounds_track_first (ch : Nat → Prop) (w n : Nat) (vb : varblock_t)
    (hnone : ∀ i, i < n → ¬ ch i) (hch : ch n) (he : bounds_empty vb)
    (hx : word_col w n < INT_MAX) (hy : word_row w n < INT_MAX) :
    bounds_track ch w (n + 1) (track (word_col w n) (word_row w n) vb) := by
  have heq : ∀ i, i < n + 1 → ch i → i = n := by
    intro i hi hc
    by_contra hne
    exact hnone i (by omega) hc
  obtain ⟨t1, t2, t3, t4⟩ := track_sentinel (word_col w n) (word_row w n) vb he.1 he.2.1
    he.2.2.1 he.2.2.2 hx hy
  refine ⟨⟨n, by omega, hch, t1⟩, ?_, Or.inl t3, ⟨n, by omega, hch, t2⟩, ?_, Or.inl ⟨t4, ?_⟩⟩
  · intro i hi hc
    rw [heq i hi hc, t1]
  · intro i hi hc
    rw [heq i hi hc, t2]
  · intro i hi hc
    rw [heq i hi hc, t2]

theorem bounds_track_step (ch : Nat → Prop) (w n : Nat) (vb : varblock_t) (hch : ch n)
    (h : bounds_track ch w n vb) :
    bounds_track ch w (n + 1) (track (word_col w n) (word_row w n) vb) := by
  obtain ⟨⟨i1, l1, c1, e1⟩, a2, a3, ⟨i4, l4, c4, e4⟩, a5, a6⟩ := h
  obtain ⟨f1, f2, f3, f4⟩ := track_fields (word_col w n) (word_row w n) vb
  have hcase : ∀ i, i < n + 1 → i < n ∨ i = n := fun i hi => by omega
  have hx0 := word_col_nonneg w n
  have hy0 := word_row_nonneg w n
  -- the row of the new word is not above the first changed row
  have hrow : ¬ word_row w n < vb.min_y := by
    have := word_row_mono w i4 n (by omega)
    omega
  rw [if_neg hrow] at f3 f4
  refine ⟨?_, ?_, ?_, ⟨i4, by omega, c4, f3.trans e4⟩, ?_, ?_⟩
  · by_cases hxm : word_col w n < vb.min_x
    · rw [if_pos hxm] at f1
      exact ⟨n, by omega, hch, f1⟩
    · rw [if_neg hxm] at f1
      exact ⟨i1, by omega, c1, f1.trans e1⟩
  · intro i hi hc
    by_cases hxm : word_col w n < vb.min_x
    · rw [if_pos hxm] at f1
      rcases hcase i hi with hlt | heq
      · have := a2 i hlt hc
        omega
      · rw [heq, f1]
    · rw [if_neg hxm] at f1
      rcases hcase i hi with hlt | heq
      · have := a2 i hlt hc
        omega
      · rw [heq]
        omega
  · by_cases hxm : word_col w n < vb.min_x
    · rw [if_pos hxm] at f2
      rcases a3 with h3 | ⟨i3, l3, c3, e3⟩
      · exact Or.inl (f2.trans h3)
      · exact Or.inr ⟨i3, by omega, c3, f2.trans e3⟩
    · rw [if_neg hxm] at f2
      by_cases hxM : word_col w n > vb.max_x
      · rw [if_pos hxM] at f2
        exact Or.inr ⟨n, by omega, hch, f2⟩
      · rw [if_neg hxM] at f2
        rcases a3 with h3 | ⟨i3, l3, c3, e3⟩
        · exact Or.inl (f2.trans h3)
        · exact Or.inr ⟨i3, by omega, c3, f2.trans e3⟩
  · intro i hi hc
    rcases hcase i hi with hlt | heq
    · have := a5 i hlt hc
      omega
    · rw [heq]
      omega
  · by_cases hyM : word_row w n > vb.max_y
    · rw [if_pos hyM] at f4
      refine Or.inr ⟨⟨n, by omega, hch, f4⟩, ?_⟩
      intro i hi hc
      have := word_row_mono w i n (by omega)
      omega
    · rw [if_neg hyM] at f4
      rcases a6 with ⟨h6, _⟩ | ⟨⟨i6, l6, c6, e6⟩, h7⟩
      · omega
      · refine Or.inr ⟨⟨i6, by omega, c6, f4.trans e6⟩, ?_⟩
        intro i hi hc
        rcases hcase i hi with hlt | heq
        · have := h7 i hlt hc
          omega
        · rw [heq]
          omega

theorem scan_upto_bounds (fbmmap : Nat → Nat) (base w N : Nat) (st0 : Server)
    (he : bounds_empty st0.varblock)
    (hx : ∀ i, i < N → word_col w i < INT_MAX) (hy : ∀ i, i < N → word_row w i < INT_MAX) :
    ∀ n, n ≤ N →
      ((∀ i, i < n → ¬ changed_word fbmmap base st0.fbbuf i) ∧
        bounds_empty (scan_upto fbmmap base w st0 n).varblock) ∨
      bounds_track (changed_word fbmmap base st0.fbbuf) w n
        (scan_upto fbmmap base w st0 n).varblock := by
  intro n
  induction n with
  | zero =>
    intro _
    exact Or.inl ⟨fun i hi => by omega, he⟩
  | succ n ih =>
    intro hn
    have ih := ih (by omega)
    have e : scan_upto fbmmap base w st0 (n + 1) =
        scan_word fbmmap base (word_col w n) (word_row w n) n
          (scan_upto fbmmap base w st0 n) := rfl
    have hfb := scan_upto_fbbuf_ge fbmmap base w st0 n n (Nat.le_refl _)
    rw [e]
    by_cases hsame : fbmmap (base + n) = (scan_upto fbmmap base w st0 n).fbbuf n
    · rw [scan_word_same _ _ _ _ _ _ hsame]
      have hnc : ¬ changed_word fbmmap base st0.fbbuf n := by
        unfold changed_word
        rw [← hfb]
        exact fun h => h hsame
      rcases ih with ⟨h1, h2⟩ | h
      · left
        refine ⟨fun i hi => ?_, h2⟩
        by_cases hin : i = n
        · rw [hin]; exact hnc
        · exact h1 i (by omega)
      · exact Or.inr (bounds_track_skip _ w n _ hnc h)
    · have hc : changed_word fbmmap base st0.fbbuf n := by
        unfold changed_word
        rw [← hfb]
        exact hsame
      rw [(scan_word_changed _ _ _ _ _ _ hsame).1]
      rcases ih with ⟨h1, h2⟩ | h
      · exact Or.inr (bounds_track_first _ w n _ h1 hc h2 (hx n (by omega)) (hy n (by omega)))
      · exact Or.inr (bounds_track_step _ w n _ hc h)

theorem scan_words_in_range (ioctl : Option fb_var_screeninfo) (st : Server) (i : Nat)
    (hi : i < scan_lines ioctl st * row_words ioctl st) :
    word_col (row_words ioctl st) i < INT_MAX ∧ word_row (row_words ioctl st) i < INT_MAX := by
  have hc := scan_cols_lt ioctl st
  have hl := scan_lines_lt ioctl st
  have hw : 0 < row_words ioctl st := by
    rcases Nat.eq_zero_or_pos (row_words ioctl st) with h0 | hpos
    · rw [h0, Nat.mul_zero] at hi
      omega
    · exact hpos
  have hmod : i % row_words ioctl st < row_words ioctl st := Nat.mod_lt _ hw
  have hdiv : i / row_words ioctl st < scan_lines ioctl st :=
    Nat.div_lt_of_lt_mul (by rw [Nat.mul_comm]; exact hi)
  have hrw : row_words ioctl st = (scan_cols ioctl st + 1) / 2 := rfl
  constructor
  · show ((2 * (i % row_words ioctl st) : Nat) : Int) < 2147483647
    omega
  · show ((i / row_words ioctl st : Nat) : Int) < 2147483647
    omega

/-- C13. When at least one scanned word of the native frame differs from the
snapshot, `update_screen` reports the rectangle
`(min_x, min_y, max_x + 2, max_y + 1)` of the bounds it returns with, where
`min_x` is the smallest changed column, `min_y` the first (smallest) changed
row, `max_y` the last (largest) changed row, and `max_x` is not greater than
some changed column, hence not greater than the largest one. -/
theorem update_screen_edges (ioctl : Option fb_var_screeninfo) (fbmmap : Nat → Nat)
    (st : Server) (hppi : st.varblock.pixels_per_int = 2)
    (hchg : ∃ i, i < scan_lines ioctl st * row_words ioctl st ∧
      changed_word fbmmap (scan_base ioctl st) st.fbbuf i) :
    ∃ st1, update_screen ioctl fbmmap st =
        some (st1, some ⟨st1.varblock.min_x, st1.varblock.min_y, st1.varblock.max_x + 2,
          st1.varblock.max_y + 1⟩) ∧
      (∃ i, i < scan_lines ioctl st * row_words ioctl st ∧
        changed_word fbmmap (scan_base ioctl st) st.fbbuf i ∧
        st1.varblock.min_x = word_col (row_words ioctl st) i) ∧
      (∀ i, i < scan_lines ioctl st * row_words ioctl st →
        changed_word fbmmap (scan_base ioctl st) st.fbbuf i →
        st1.varblock.min_x ≤ word_col (row_words ioctl st) i) ∧
      (∃ i, i < scan_lines ioctl st * row_words ioctl st ∧
        changed_word fbmmap (scan_base ioctl st) st.fbbuf i ∧
        st1.varblock.min_y = word_row (row_words ioctl st) i) ∧
      (∀ i, i < scan_lines ioctl st * row_words ioctl st →
        changed_word fbmmap (scan_base ioctl st) st.fbbuf i →
        st1.varblock.min_y ≤ word_row (row_words ioctl st) i) ∧
      (∃ i, i < scan_lines ioctl st * row_words ioctl st ∧
        changed_word fbmmap (scan_base ioctl st) st.fbbuf i ∧
        st1.varblock.max_y = word_row (row_words ioctl st) i) ∧
      (∀ i, i < scan_lines ioctl st * row_words ioctl st →
        changed_word fbmmap (scan_base ioctl st) st.fbbuf i →
        word_row (row_words ioctl st) i ≤ st1.varblock.max_y) ∧
      (∃ i, i < scan_lines ioctl st * row_words ioctl st ∧
        changed_word fbmmap (scan_base ioctl st) st.fbbuf i ∧
        st1.varblock.max_x ≤ word_col (row_words ioctl st) i) := by
  have hupd := update_screen_eq ioctl fbmmap st hppi
  have hinv := scan_upto_bounds fbmmap (scan_base ioctl st) (row_words ioctl st)
    (scan_lines ioctl st * row_words ioctl st) (scan_begin ioctl st).1
    (scan_begin_bounds ioctl st)
    (fun i hi => (scan_words_in_range ioctl st i hi).1)
    (fun i hi => (scan_words_in_range ioctl st i hi).2)
    (scan_lines ioctl st * row_words ioctl st) (Nat.le_refl _)
  rw [scan_begin_fbbuf] at hinv
  obtain ⟨i0, l0, c0⟩ := hchg
  rcases hinv with ⟨h1, _⟩ | h
  · exact absurd c0 (h1 i0 l0)
  · obtain ⟨⟨i1, l1, c1, e1⟩, a2, a3, ⟨i4, l4, c4, e4⟩, a5, a6⟩ := h
    have hmin : (scan_upto fbmmap (scan_base ioctl st) (row_words ioctl st)
        (scan_begin ioctl st).1 (scan_lines ioctl st * row_words ioctl st)).varblock.min_x <
        INT_MAX := by
      rw [e1]
      exact (scan_words_in_range ioctl st i1 l1).1
    obtain ⟨f1, f2, f3, f4, f5⟩ := scan_end_fields _ hmin
    have hres : update_screen ioctl fbmmap st =
        some ((scan_end (scan_upto fbmmap (scan_base ioctl st) (row_words ioctl st)
          (scan_begin ioctl st).1 (scan_lines ioctl st * row_words ioctl st))).1,
          (scan_end (scan_upto fbmmap (scan_base ioctl st) (row_words ioctl st)
          (scan_begin ioctl st).1 (scan_lines ioctl st * row_words ioctl st))).2) := hupd
    rw [f5] at hres
    refine ⟨_, hres, ⟨i1, l1, c1, f1.trans e1⟩, ?_, ⟨i4, l4, c4, f2.trans e4⟩, ?_, ?_, ?_, ?_⟩
    · intro i hi hc
      rw [f1]
      exact a2 i hi hc
    · intro i hi hc
      rw [f2]
      exact a5 i hi hc
    · rcases a6 with ⟨h6, _⟩ | ⟨⟨i6, l6, c6, e6⟩, _⟩
      · rw [if_pos (by omega)] at f4
        exact ⟨i4, l4, c4, f4.trans e4⟩
      · have := word_row_nonneg (row_words ioctl st) i6
        rw [if_neg (by omega)] at f4
        exact ⟨i6, l6, c6, f4.trans e6⟩
    · intro i hi hc
      rcases a6 with ⟨h6, h7⟩ | ⟨⟨i6, l6, c6, e6⟩, h7⟩
      · rw [if_pos (by omega)] at f4
        rw [f4, h7 i hi hc]
      · have := word_row_nonneg (row_words ioctl st) i6
        rw [if_neg (by omega)] at f4
        rw [f4]
        exact h7 i hi hc
    · rcases a3 with h3 | ⟨i3, l3, c3, e3⟩
      · rw [if_pos (by omega)] at f3
        exact ⟨i1, l1, c1, le_of_eq (f3.trans e1)⟩
      · have := word_col_nonneg (row_words ioctl st) i3
        rw [if_neg (by omega)] at f3
        exact ⟨i3, l3, c3, le_of_eq (f3.trans e3)⟩

theorem update_screen_edges_witness :
    ∃ st1, update_screen none frame_stairs (demo_server 0) =
        some (st1, some ⟨st1.varblock.min_x, st1.varblock.min_y, st1.varblock.max_x + 2,
          st1.varblock.max_y + 1⟩) ∧
      (∃ i, i < scan_lines none (demo_server 0) * row_words none (demo_server 0) ∧
        changed_word frame_stairs (scan_base none (demo_server 0)) (demo_server 0).fbbuf i ∧
        st1.varblock.min_x = word_col (row_words none (demo_server 0)) i) ∧
      (∀ i, i < scan_lines none (demo_server 0) * row_words none (demo_server 0) →
        changed_word frame_stairs (scan_base none (demo_server 0)) (demo_server 0).fbbuf i →
        st1.varblock.min_x ≤ word_col (row_words none (demo_server 0)) i) ∧
      (∃ i, i < scan_lines none (demo_server 0) * row_words none (demo_server 0) ∧
        changed_word frame_stairs (scan_base none (demo_server 0)) (demo_server 0).fbbuf i ∧
        st1.varblock.min_y = word_row (row_words none (demo_server 0)) i) ∧
      (∀ i, i < scan_lines none (demo_server 0) * row_words none (demo_server 0) →
        changed_word frame_stairs (scan_base none (demo_server 0)) (demo_server 0).fbbuf i →
        st1.varblock.min_y ≤ word_row (row_words none (demo_server 0)) i) ∧
      (∃ i, i < scan_lines none (demo_server 0) * row_words none (demo_server 0) ∧
        changed_word frame_stairs (scan_base none (demo_server 0)) (demo_server 0).fbbuf i ∧
        st1.varblock.max_y = word_row (row_words none (demo_server 0)) i) ∧
      (∀ i, i < scan_lines none (demo_server 0) * row_words none (demo_server 0) →
        changed_word frame_stairs (scan_base none (demo_server 0)) (demo_server 0).fbbuf i →
        word_row (row_words none (demo_server 0)) i ≤ st1.varblock.max_y) ∧
      (∃ i, i < scan_lines none (demo_server 0) * row_words none (demo_server 0) ∧
        changed_word frame_stairs (scan_base none (demo_server 0)) (demo_server 0).fbbuf i ∧
        st1.varblock.max_x ≤ word_col (row_words none (demo_server 0)) i) :=
  update_screen_edges none frame_stairs (demo_server 0) rfl
    ⟨1, by decide, by unfold changed_word; decide⟩

end FbVnc
